import Mathlib

/-!
# Verification of the runelore Othello engine

A shallow embedding of the runelore Othello engine (bitboard move
generation / move making via Kogge-Stone flood fills, and negamax search
with fail-hard alpha-beta pruning), together with proofs of the spec's
claims about it.

64-bit machine words are modelled as `Nat` with explicit `% 2 ^ 64`
where left shifts may overflow; the 4-lane SIMD vectors of the source are
modelled as four independent scalar lane computations combined by `|||`
(the spec states this is the intended semantics of the vectorization).
-/

set_option maxHeartbeats 1600000

/-- Bitwise complement within 64 bits (Rust `!x` on `u64`). -/
def compl64 (x : Nat) : Nat := x ^^^ (2 ^ 64 - 1)

/-- Left shift truncated to 64 bits (Rust `<<` on `u64`). -/
def shl64 (x s : Nat) : Nat := (x <<< s) % 2 ^ 64

/-- `u64::count_ones`: number of set bits among bits 0..63. -/
def count_ones (x : Nat) : Nat := ((Finset.range 64).filter (fun i => x.testBit i)).card

/-- Mask representing all squares that are not on the A file. -/
def NOT_A_FILE : Nat := 0xfefefefefefefefe

/-- Mask representing all squares that are not on the H file. -/
def NOT_H_FILE : Nat := 0x7f7f7f7f7f7f7f7f

/-- Mask representing a filled board. -/
def FILLED : Nat := 0xffffffffffffffff

/-- One lane of `vectorized_fill::<true>` (right-shift sense): a scalar
Kogge-Stone fill with lane shift `s` and lane edge mask `M`. -/
def laneFillSHR (s M gen pro : Nat) : Nat :=
  let pro0 := pro &&& M
  let gen1 := gen ||| (pro0 &&& (gen >>> s))
  let pro1 := pro0 &&& (pro0 >>> s)
  let gen2 := gen1 ||| (pro1 &&& (gen1 >>> (2 * s)))
  let pro2 := pro1 &&& (pro1 >>> (2 * s))
  gen2 ||| (pro2 &&& (gen2 >>> (4 * s)))

/-- One lane of `vectorized_fill::<false>` (left-shift sense). -/
def laneFillSHL (s M gen pro : Nat) : Nat :=
  let pro0 := pro &&& M
  let gen1 := gen ||| (pro0 &&& shl64 gen s)
  let pro1 := pro0 &&& shl64 pro0 s
  let gen2 := gen1 ||| (pro1 &&& shl64 gen1 (2 * s))
  let pro2 := pro1 &&& shl64 pro1 (2 * s)
  gen2 ||| (pro2 &&& shl64 gen2 (4 * s))

/-- One lane of `vectorized_shift::<true>`. -/
def laneShiftSHR (s M x : Nat) : Nat := (x >>> s) &&& M

/-- One lane of `vectorized_shift::<false>`. -/
def laneShiftSHL (s M x : Nat) : Nat := shl64 x s &&& M

/-- The low-level Othello bitboard: two occupancy masks relative to the
side to move (`Bitboard` in `game/bitboard.rs`). -/
structure Bitboard where
  me : Nat
  op : Nat
deriving DecidableEq

/-- `Bitboard::empties`: mask of empty squares. -/
def Bitboard.empties (b : Bitboard) : Nat := compl64 (b.me ||| b.op)

/-- `Bitboard::get_moves`: mask of all valid moves.  The four SHR lanes
use shifts `[1,7,8,9]` with masks `[NOT_H_FILE, NOT_A_FILE, FILLED,
NOT_H_FILE]`, the four SHL lanes use masks `[NOT_A_FILE, NOT_H_FILE,
FILLED, NOT_A_FILE]`; `reduce_or` becomes `|||` of the four lanes. -/
def Bitboard.get_moves (b : Bitboard) : Nat :=
  let shrLane := fun s M => laneShiftSHR s M (laneFillSHR s M b.me b.op &&& b.op)
  let shlLane := fun s M => laneShiftSHL s M (laneFillSHL s M b.me b.op &&& b.op)
  let shift_shr := shrLane 1 NOT_H_FILE ||| shrLane 7 NOT_A_FILE ||| shrLane 8 FILLED ||| shrLane 9 NOT_H_FILE
  let shift_shl := shlLane 1 NOT_A_FILE ||| shlLane 7 NOT_H_FILE ||| shlLane 8 FILLED ||| shlLane 9 NOT_A_FILE
  (shift_shr ||| shift_shl) &&& b.empties

/-- `Bitboard::pass`: swap the two masks. -/
def Bitboard.pass (b : Bitboard) : Bitboard := ⟨b.op, b.me⟩

/-- `Bitboard::make_move`: per lane, fill from the move through opponent
disks; a lane's fill is kept iff shifting it once more lands on a friendly
disk (`simd_ne` + `select`); the kept fills are OR-reduced into `swaps`. -/
def Bitboard.make_move (b : Bitboard) (move_mask : Nat) : Bitboard :=
  let selSHR := fun s M =>
    let fill := laneFillSHR s M move_mask b.op
    if laneShiftSHR s M fill &&& b.me ≠ 0 then fill else 0
  let selSHL := fun s M =>
    let fill := laneFillSHL s M move_mask b.op
    if laneShiftSHL s M fill &&& b.me ≠ 0 then fill else 0
  let swaps_shr := selSHR 1 NOT_H_FILE ||| selSHR 7 NOT_A_FILE ||| selSHR 8 FILLED ||| selSHR 9 NOT_H_FILE
  let swaps_shl := selSHL 1 NOT_A_FILE ||| selSHL 7 NOT_H_FILE ||| selSHL 8 FILLED ||| selSHL 9 NOT_A_FILE
  let swaps := swaps_shr ||| swaps_shl
  ⟨b.op &&& compl64 swaps, b.me ||| swaps⟩

/-- `Bitboard::score`: material differential for the side to move. -/
def Bitboard.score (b : Bitboard) : Int := (count_ones b.me : Int) - (count_ones b.op : Int)

/-- `Bitboard::default`: the Othello starting position. -/
def Bitboard.start : Bitboard := ⟨0x0000000810000000, 0x0000001008000000⟩

/-- `Side` from `game/state.rs`. -/
inductive Side
  | Black
  | White
deriving DecidableEq

/-- `Side::flip`. -/
def Side.flip : Side → Side
  | .Black => .White
  | .White => .Black

/-- `MoveType` from `game/state.rs`. -/
inductive MoveType
  | Pass
  | Play
deriving DecidableEq

/-- `GameState`: side to move and type of the last move. -/
structure GameState where
  side : Side
  last : MoveType
deriving DecidableEq

/-- `GameState::default()`: Black to move, `last` defaulted to `Play`. -/
def GameState.start : GameState := ⟨Side.Black, MoveType.Play⟩

/-- `GameState::play`. -/
def GameState.play (g : GameState) : GameState := ⟨g.side.flip, MoveType.Play⟩

/-- `GameState::pass`. -/
def GameState.pass (g : GameState) : GameState := ⟨g.side.flip, MoveType.Pass⟩

/-- `GameState::get_last`. -/
def GameState.get_last (g : GameState) : MoveType := g.last

/-- `Move` from `game/mod.rs`. -/
inductive Move
  | Play (idx : Nat)
  | Pass
deriving DecidableEq

/-- `Board`: the high-level wrapper pairing a bitboard with game state. -/
structure Board where
  bitboard : Bitboard
  game_state : GameState
deriving DecidableEq

/-- `Board::default()`. -/
def Board.start : Board := ⟨Bitboard.start, GameState.start⟩

/-- `extract_lsb` from `game/mod.rs`: `x & x.overflowing_neg().0`. -/
def extract_lsb (x : Nat) : Nat := x &&& ((2 ^ 64 - x) % 2 ^ 64)

/-- `isolate_lsb` from `game/mod.rs` (same body as `extract_lsb`). -/
def isolate_lsb (x : Nat) : Nat := x &&& ((2 ^ 64 - x) % 2 ^ 64)

/-- Index of the lowest set bit (`u64::trailing_zeros`; 64 for input 0). -/
def lowBitIdx (x : Nat) : Nat :=
  if x = 0 then 64
  else if x % 2 = 1 then 0 else lowBitIdx (x / 2) + 1
decreasing_by exact Nat.div_lt_self (Nat.pos_of_ne_zero (by assumption)) (by omega)

/-- `u64::trailing_zeros`. -/
def trailing_zeros (x : Nat) : Nat := lowBitIdx x

theorem lowBitIdx_odd (x : Nat) (h : x % 2 = 1) : lowBitIdx x = 0 := by
  rw [lowBitIdx]
  have hx : x ≠ 0 := by omega
  simp [hx, h]

theorem lowBitIdx_even (x : Nat) (h0 : x ≠ 0) (h : x % 2 = 0) :
    lowBitIdx x = lowBitIdx (x / 2) + 1 := by
  rw [lowBitIdx]
  simp [h0, h]

/-- `&&&` distributes over appending a binary digit to each side. -/
theorem land_parity (a b : Nat) (s t : Nat) (hs : s ≤ 1) (ht : t ≤ 1) :
    (2 * a + s) &&& (2 * b + t) = 2 * (a &&& b) + (s &&& t) := by
  apply Nat.eq_of_testBit_eq
  intro i
  cases i with
  | zero =>
    have h1 : (2 * a + s) % 2 = s := by omega
    have h2 : (2 * b + t) % 2 = t := by omega
    have h3 : (2 * (a &&& b) + (s &&& t)) % 2 = s &&& t := by
      have : s &&& t ≤ s := Nat.and_le_left
      omega
    rw [Nat.testBit_and]
    simp only [Nat.testBit_zero]
    rw [h1, h2, h3]
    interval_cases s <;> interval_cases t <;> decide
  | succ j =>
    have h1 : (2 * a + s) / 2 = a := by omega
    have h2 : (2 * b + t) / 2 = b := by omega
    have h3 : (2 * (a &&& b) + (s &&& t)) / 2 = a &&& b := by
      have : s &&& t ≤ s := Nat.and_le_left
      omega
    rw [Nat.testBit_and]
    simp only [Nat.testBit_succ]
    rw [h1, h2, h3, Nat.testBit_and]

/-- A number and its 64-bit-style complement `2^k - 1 - a` share no bits. -/
theorem land_compl_sub (k : Nat) : ∀ a, a < 2 ^ k → a &&& (2 ^ k - 1 - a) = 0 := by
  induction k with
  | zero => intro a ha; interval_cases a; decide
  | succ k ih =>
    intro a ha
    have hpow : 2 ^ (k + 1) = 2 * 2 ^ k := by ring
    have ha2 : a / 2 < 2 ^ k := by omega
    have hsub : 2 ^ (k + 1) - 1 - a = 2 * (2 ^ k - 1 - a / 2) + (1 - a % 2) := by omega
    have hdecomp : a = 2 * (a / 2) + a % 2 := by omega
    calc a &&& (2 ^ (k + 1) - 1 - a)
        = (2 * (a / 2) + a % 2) &&& (2 * (2 ^ k - 1 - a / 2) + (1 - a % 2)) := by
          rw [← hdecomp, ← hsub]
      _ = 2 * (a / 2 &&& (2 ^ k - 1 - a / 2)) + (a % 2 &&& (1 - a % 2)) :=
          land_parity _ _ _ _ (by omega) (by omega)
      _ = 0 := by
          rw [ih (a / 2) ha2]
          have : a % 2 = 0 ∨ a % 2 = 1 := by omega
          rcases this with h | h <;> simp [h]

/-- `x & (2^k - x)` isolates the lowest set bit. -/
theorem land_neg_eq_lowbit (x : Nat) (k : Nat) (h0 : 0 < x) (hk : x < 2 ^ k) :
    x &&& (2 ^ k - x) = 2 ^ lowBitIdx x := by
  induction x using Nat.strong_induction_on generalizing k with
  | _ x ih =>
    have hk1 : 1 ≤ k := by
      by_contra h
      interval_cases k <;> omega
    have hpow : 2 ^ k = 2 * 2 ^ (k - 1) := by
      have h := pow_succ 2 (k - 1)
      rw [show k - 1 + 1 = k by omega] at h
      omega
    rcases Nat.even_or_odd x with he | ho
    · -- x even: x = 2c with c > 0
      have hmod : x % 2 = 0 := by
        rcases he with ⟨c, hc⟩; omega
      have hc0 : 0 < x / 2 := by omega
      have hclt : x / 2 < 2 ^ (k - 1) := by omega
      have hdx : x = 2 * (x / 2) + 0 := by omega
      have hdsub : 2 ^ k - x = 2 * (2 ^ (k - 1) - x / 2) + 0 := by omega
      rw [lowBitIdx_even x (by omega) hmod]
      calc x &&& (2 ^ k - x)
          = (2 * (x / 2) + 0) &&& (2 * (2 ^ (k - 1) - x / 2) + 0) := by rw [← hdx, ← hdsub]
        _ = 2 * (x / 2 &&& (2 ^ (k - 1) - x / 2)) + (0 &&& 0) :=
            land_parity _ _ _ _ (by omega) (by omega)
        _ = 2 * 2 ^ lowBitIdx (x / 2) := by
            rw [ih (x / 2) (by omega) (k - 1) hc0 hclt]; simp
        _ = 2 ^ (lowBitIdx (x / 2) + 1) := by ring
    · -- x odd
      have hmod : x % 2 = 1 := Nat.odd_iff.mp ho
      rw [lowBitIdx_odd x hmod]
      have hdx : x = 2 * (x / 2) + 1 := by omega
      have hdsub : 2 ^ k - x = 2 * (2 ^ (k - 1) - 1 - x / 2) + 1 := by omega
      have hclt : x / 2 < 2 ^ (k - 1) := by omega
      calc x &&& (2 ^ k - x)
          = (2 * (x / 2) + 1) &&& (2 * (2 ^ (k - 1) - 1 - x / 2) + 1) := by rw [← hdx, ← hdsub]
        _ = 2 * (x / 2 &&& (2 ^ (k - 1) - 1 - x / 2)) + (1 &&& 1) :=
            land_parity _ _ _ _ (by omega) (by omega)
        _ = 2 ^ 0 := by
            rw [land_compl_sub (k - 1) (x / 2) hclt]
            decide
/-- `extract_lsb` returns `2 ^ (index of lowest set bit)` on nonzero 64-bit input. -/
theorem extract_lsb_eq (x : Nat) (h0 : 0 < x) (h64 : x < 2 ^ 64) :
    extract_lsb x = 2 ^ lowBitIdx x := by
  unfold extract_lsb
  rw [Nat.mod_eq_of_lt (by omega)]
  exact land_neg_eq_lowbit x 64 h0 h64

/-- The lowest set bit of a positive number is set. -/
theorem testBit_lowBitIdx (x : Nat) (h0 : 0 < x) : x.testBit (lowBitIdx x) = true := by
  induction x using Nat.strong_induction_on with
  | _ x ih =>
    rcases Nat.even_or_odd x with he | ho
    · have hmod : x % 2 = 0 := by rcases he with ⟨c, hc⟩; omega
      rw [lowBitIdx_even x (by omega) hmod, Nat.testBit_succ]
      exact ih (x / 2) (by omega) (by omega)
    · have hmod : x % 2 = 1 := Nat.odd_iff.mp ho
      rw [lowBitIdx_odd x hmod, Nat.testBit_zero]
      simp [hmod]

/-- The lowest set bit of a nonzero 64-bit value is below 64. -/
theorem lowBitIdx_lt_64 (x : Nat) (h0 : 0 < x) (h64 : x < 2 ^ 64) : lowBitIdx x < 64 := by
  by_contra h
  have hb := testBit_lowBitIdx x h0
  have : x < 2 ^ lowBitIdx x := lt_of_lt_of_le h64 (Nat.pow_le_pow_right (by omega) (by omega))
  rw [Nat.testBit_lt_two_pow this] at hb
  exact absurd hb (by simp)

/-- Clearing the extracted lowest bit strictly decreases the mask; this is
the termination measure of the move loops. -/
theorem clear_lsb_lt (v : Nat) (h : v ≠ 0) : v &&& compl64 (extract_lsb v) < v := by
  rcases lt_or_ge v (2 ^ 64) with h64 | h64
  · have hlsb := extract_lsb_eq v (Nat.pos_of_ne_zero h) h64
    have ht : lowBitIdx v < 64 := lowBitIdx_lt_64 v (Nat.pos_of_ne_zero h) h64
    have hle : v &&& compl64 (extract_lsb v) ≤ v := Nat.and_le_left
    have hne : v &&& compl64 (extract_lsb v) ≠ v := by
      intro heq
      have hbit : (v &&& compl64 (extract_lsb v)).testBit (lowBitIdx v) = v.testBit (lowBitIdx v) := by
        rw [heq]
      rw [Nat.testBit_and, hlsb] at hbit
      unfold compl64 at hbit
      rw [Nat.testBit_xor, Nat.testBit_two_pow, Nat.testBit_two_pow_sub_one] at hbit
      rw [testBit_lowBitIdx v (Nat.pos_of_ne_zero h)] at hbit
      simp [ht] at hbit
    omega
  · have hz : 2 ^ 64 - v = 0 := by omega
    unfold extract_lsb
    rw [hz]
    have h1 : v &&& 0 % 2 ^ 64 = 0 := by simp
    rw [h1]
    have h2 : compl64 0 = 2 ^ 64 - 1 := by unfold compl64; simp
    rw [h2]
    calc v &&& (2 ^ 64 - 1) ≤ 2 ^ 64 - 1 := Nat.and_le_right
      _ < v := by omega

/-- The inner `while valid_moves > 0` loop of `negamax_impl` in
`search/mod.rs`, parameterized by the child evaluation `f move_mask alpha
beta` (which the caller instantiates with the recursive call one ply
deeper).  Mirrors the source exactly: extract the lowest set bit, clear
it, negate the child score searched on the window `(-beta, -alpha)`,
return `beta` on a cutoff, else raise `alpha` and continue; return the
running `alpha` once the mask is exhausted. -/
def moveLoop (f : Nat → Int → Int → Int) (valid : Nat) (alpha beta : Int) : Int :=
  if h : valid = 0 then alpha
  else
    let move_mask := extract_lsb valid
    let score := -f move_mask (-beta) (-alpha)
    if beta ≤ score then beta
    else moveLoop f (valid &&& compl64 move_mask) (if alpha < score then score else alpha) beta
termination_by valid
decreasing_by exact clear_lsb_lt valid h

/-- `negamax_impl` from `search/mod.rs`: recursive fail-hard alpha-beta
negamax over `(Bitboard, GameState)`. -/
def negamax_impl : Bitboard → GameState → Int → Int → Nat → Int
  | bb, _, _, _, 0 => bb.score
  | bb, gs, alpha, beta, d + 1 =>
    let valid := bb.get_moves
    if valid = 0 then
      if gs.get_last = MoveType.Pass then bb.score
      else -negamax_impl bb.pass gs.pass (-beta) (-alpha) d
    else moveLoop (fun m a b => negamax_impl (bb.make_move m) gs.play a b d) valid alpha beta

/-- The loop of `Board::get_moves` building the `Vec<Move>` of play moves
from the valid-move mask, lowest square index first. -/
def movesListGo (valid : Nat) : List Move :=
  if h : valid = 0 then []
  else
    let move_mask := isolate_lsb valid
    Move.Play (trailing_zeros move_mask) :: movesListGo (valid &&& compl64 move_mask)
termination_by valid
decreasing_by exact clear_lsb_lt valid h

/-- `Board::get_moves`: all play moves, or a synthesized `Pass` when the
mask is empty. -/
def Board.get_moves (b : Board) : List Move :=
  let moves := movesListGo b.bitboard.get_moves
  if moves = [] then [Move.Pass] else moves

/-- `InvalidMoveError` from `game/mod.rs`. -/
inductive InvalidMoveError
  | invalid
deriving DecidableEq

/-- `Board::play` exactly as written in `game/mod.rs`: a `Play` move is
validated against the current mask; the `Pass` branch tests
`valid_moves == 0` and errors in that case (this is the code's actual
check — note it errors precisely when the move mask is empty, i.e. when
a pass is the only legal move).  Errors leave the board untouched — the
returned board component is the unchanged input; the Rust `&mut self`
mutation is modelled by returning the (possibly updated) board
alongside the `Result`. -/
def Board.play (b : Board) (m : Move) : Except InvalidMoveError Unit × Board :=
  let valid_moves := b.bitboard.get_moves
  match m with
  | Move.Play idx =>
    if valid_moves &&& (1 <<< idx) = 0 then (Except.error InvalidMoveError.invalid, b)
    else (Except.ok (), ⟨b.bitboard.make_move (1 <<< idx), b.game_state.play⟩)
  | Move.Pass =>
    if valid_moves = 0 then (Except.error InvalidMoveError.invalid, b)
    else (Except.ok (), ⟨b.bitboard.pass, b.game_state.pass⟩)

/-- The root loop of `negamax` in `search/mod.rs`: track the best `(move,
score)` over all candidates with a full window per child and strict
improvement (`score > best_score`); return `None` when the sole `Pass`
candidate follows a previous pass. -/
def rootLoop (bb : Bitboard) (gs : GameState) (depth : Nat) :
    List Move → Move → Int → Option (Move × Int)
  | [], best_move, best_score => some (best_move, best_score)
  | mv :: rest, best_move, best_score =>
    match mv with
    | Move.Play idx =>
      let score := -negamax_impl (bb.make_move (1 <<< idx)) gs.play (-2147483647) 2147483647 (depth - 1)
      if best_score < score then rootLoop bb gs depth rest mv score
      else rootLoop bb gs depth rest best_move best_score
    | Move.Pass =>
      if gs.get_last = MoveType.Pass then none
      else
        let score := -negamax_impl bb.pass gs.pass (-2147483647) 2147483647 (depth - 1)
        if best_score < score then rootLoop bb gs depth rest mv score
        else rootLoop bb gs depth rest best_move best_score

/-- The root entry point `negamax(board, depth)` from `search/mod.rs`.
`best_score` starts at `i32::MIN`, `best_move` at `moves[0]` (the `?` on
`moves.get(0)` is the `Option.bind` on `head?`). -/
def negamax (board : Board) (depth : Nat) : Option (Move × Int) :=
  if depth = 0 then none
  else
    let moves := board.get_moves
    match moves.head? with
    | none => none
    | some m0 => rootLoop board.bitboard board.game_state depth moves m0 (-2147483648)

/-- Maximum of the negated child evaluations over all set bits of `valid`
(lowest bit first): the move handling of an unpruned full-width negamax.
Modelled from the spec's refinement target: "an unpruned full-width
search over the same tree". -/
def fullLoop (f : Nat → Int) (valid : Nat) : Int :=
  if h : valid = 0 then 0
  else
    let move_mask := extract_lsb valid
    let rest := valid &&& compl64 move_mask
    let score := -f move_mask
    if rest = 0 then score else max score (fullLoop f rest)
termination_by valid
decreasing_by exact clear_lsb_lt valid h

/-- Unpruned full-width negamax over the same tree as `negamax_impl`:
same leaf evaluation, same pass/terminal rules, no alpha-beta window.
Modelled from the spec's refinement target. -/
def negamaxFullWidth : Bitboard → GameState → Nat → Int
  | bb, _, 0 => bb.score
  | bb, gs, d + 1 =>
    let valid := bb.get_moves
    if valid = 0 then
      if gs.get_last = MoveType.Pass then bb.score
      else -negamaxFullWidth bb.pass gs.pass d
    else fullLoop (fun m => negamaxFullWidth (bb.make_move m) gs.play d) valid

/-- Root loop of the unpruned reference search: identical to `rootLoop`
except that children are evaluated by `negamaxFullWidth`. -/
def rootLoopFull (bb : Bitboard) (gs : GameState) (depth : Nat) :
    List Move → Move → Int → Option (Move × Int)
  | [], best_move, best_score => some (best_move, best_score)
  | mv :: rest, best_move, best_score =>
    match mv with
    | Move.Play idx =>
      let score := -negamaxFullWidth (bb.make_move (1 <<< idx)) gs.play (depth - 1)
      if best_score < score then rootLoopFull bb gs depth rest mv score
      else rootLoopFull bb gs depth rest best_move best_score
    | Move.Pass =>
      if gs.get_last = MoveType.Pass then none
      else
        let score := -negamaxFullWidth bb.pass gs.pass (depth - 1)
        if best_score < score then rootLoopFull bb gs depth rest mv score
        else rootLoopFull bb gs depth rest best_move best_score

/-- Root entry point of the unpruned reference search. -/
def negamaxFull (board : Board) (depth : Nat) : Option (Move × Int) :=
  if depth = 0 then none
  else
    let moves := board.get_moves
    match moves.head? with
    | none => none
    | some m0 => rootLoopFull board.bitboard board.game_state depth moves m0 (-2147483648)

/-- "No beta cutoff ever fires while the move loop runs": every child
score encountered (with the evolving alpha) stays below `beta`. -/
def cutoffFree (f : Nat → Int → Int → Int) (valid : Nat) (alpha beta : Int) : Prop :=
  if h : valid = 0 then True
  else
    let move_mask := extract_lsb valid
    let score := -f move_mask (-beta) (-alpha)
    score < beta ∧
      cutoffFree f (valid &&& compl64 move_mask) (if alpha < score then score else alpha) beta
termination_by valid
decreasing_by exact clear_lsb_lt valid h

/-- The "running alpha" of the move loop: the fold that raises `alpha` by
each child score in turn, with no cutoff. -/
def runningAlpha (f : Nat → Int → Int → Int) (valid : Nat) (alpha beta : Int) : Int :=
  if h : valid = 0 then alpha
  else
    let move_mask := extract_lsb valid
    let score := -f move_mask (-beta) (-alpha)
    runningAlpha f (valid &&& compl64 move_mask) (if alpha < score then score else alpha) beta
termination_by valid
decreasing_by exact clear_lsb_lt valid h

/-- The 8 board directions, as (row delta, column delta) movements on the
8x8 board (square index = 8 * row + column).  `W`, `NE`, `N`, `NW` are
the directions in which the square index decreases by 1, 7, 8, 9; `E`,
`SW`, `S`, `SE` those in which it increases by 1, 7, 8, 9. -/
inductive Dir
  | W
  | NE
  | N
  | NW
  | E
  | SW
  | S
  | SE
deriving DecidableEq, Fintype

/-- Row/column displacement of a direction. -/
def dirDelta : Dir → Int × Int
  | .W => (0, -1)
  | .NE => (-1, 1)
  | .N => (-1, 0)
  | .NW => (-1, -1)
  | .E => (0, 1)
  | .SW => (1, -1)
  | .S => (1, 0)
  | .SE => (1, 1)

/-- One geometric step from square `a` in direction `d`: `none` when the
step leaves the board. -/
def dirStep (d : Dir) (a : Nat) : Option Nat :=
  let r : Int := (a : Int) / 8
  let c : Int := (a : Int) % 8
  let r2 := r + (dirDelta d).1
  let c2 := c + (dirDelta d).2
  if 0 ≤ r2 ∧ r2 < 8 ∧ 0 ≤ c2 ∧ c2 < 8 then some (8 * r2 + c2).toNat else none

/-- Walk from a square in direction `d`, accumulating the run of opponent
disks; return the accumulated run if the walk reaches a friendly disk
(the run is validly flanked), and `0` if it reaches an empty square or
the board edge first. -/
def flipWalk (me op : Nat) (d : Dir) : Nat → Nat → Nat → Nat
  | 0, _, _ => 0
  | fuel + 1, a, acc =>
    match dirStep d a with
    | none => 0
    | some b =>
      if op.testBit b then flipWalk me op d fuel b (acc ||| (1 <<< b))
      else if me.testBit b then acc
      else 0

/-- The flood-fill run of opponent disks from the played square `q` in
direction `d`, contributing its disks exactly when the run terminates at
a friendly disk. -/
def flipsDir (me op q : Nat) (d : Dir) : Nat := flipWalk me op d 8 q 0

/-- Whether the run of opponent disks from `q` in direction `d`
terminates at a friendly disk (possibly with an empty run). -/
def flankedWalk (me op : Nat) (d : Dir) : Nat → Nat → Bool
  | 0, _ => false
  | fuel + 1, a =>
    match dirStep d a with
    | none => false
    | some b => if op.testBit b then flankedWalk me op d fuel b else me.testBit b

/-- Whether direction `d` is validly flanked from square `q`. -/
def flankedDir (me op q : Nat) (d : Dir) : Bool := flankedWalk me op d 8 q

/-- All 8 directions. -/
def dirList : List Dir := [.W, .NE, .N, .NW, .E, .SW, .S, .SE]

/-- The flip set of the claim: union over all 8 directions of the
flood-fill runs of opponent disks from the played square, taken in the
directions whose run terminates at a friendly disk. -/
def specFlips (me op q : Nat) : Nat :=
  (dirList.map (flipsDir me op q)).foldr (· ||| ·) 0

/-- Well-formedness of a bitboard: the two masks are 64-bit values and
are disjoint. -/
def Bitboard.wf (b : Bitboard) : Prop :=
  b.me &&& b.op = 0 ∧ b.me < 2 ^ 64 ∧ b.op < 2 ^ 64

/-- A single-bit move mask drawn from the valid-move mask of `b`. -/
def legalSingleBit (b : Bitboard) (m : Nat) : Prop :=
  ∃ i, i < 64 ∧ m = 1 <<< i ∧ b.get_moves.testBit i = true

/-- Bitboards reachable from the starting position by legal `make_move`
steps and `pass` steps. -/
inductive ReachableBB : Bitboard → Prop
  | start : ReachableBB Bitboard.start
  | move {b : Bitboard} {m : Nat} : ReachableBB b → legalSingleBit b m →
      ReachableBB (b.make_move m)
  | pass {b : Bitboard} : ReachableBB b → ReachableBB b.pass

/-- Positions (bitboard plus game state, updated in lock-step) reachable
from the starting position. -/
inductive ReachablePos : Board → Prop
  | start : ReachablePos Board.start
  | move {bd : Board} {m : Nat} : ReachablePos bd → legalSingleBit bd.bitboard m →
      ReachablePos ⟨bd.bitboard.make_move m, bd.game_state.play⟩
  | pass {bd : Board} : ReachablePos bd → ReachablePos ⟨bd.bitboard.pass, bd.game_state.pass⟩

theorem testBit_compl64 (x i : Nat) :
    (compl64 x).testBit i = (x.testBit i ^^ decide (i < 64)) := by
  unfold compl64
  rw [Nat.testBit_xor, Nat.testBit_two_pow_sub_one]

theorem testBit_ge_64 {x : Nat} (h : x < 2 ^ 64) {i : Nat} (hi : 64 ≤ i) :
    x.testBit i = false :=
  Nat.testBit_lt_two_pow (lt_of_lt_of_le h (Nat.pow_le_pow_right (by omega) hi))

theorem shiftRight_self_le (x n : Nat) : x >>> n ≤ x := by
  rw [Nat.shiftRight_eq_div_pow]
  exact Nat.div_le_self x (2 ^ n)

theorem shl64_lt (x s : Nat) : shl64 x s < 2 ^ 64 := by
  unfold shl64
  exact Nat.mod_lt _ (by norm_num)

theorem compl64_lt (x : Nat) (h : x < 2 ^ 64) : compl64 x < 2 ^ 64 := by
  unfold compl64
  exact Nat.xor_lt_two_pow h (by norm_num)

theorem laneFillSHR_lt (s M gen pro : Nat) (h : gen < 2 ^ 64) :
    laneFillSHR s M gen pro < 2 ^ 64 := by
  unfold laneFillSHR
  set pro0 := pro &&& M with hp0
  set gen1 := gen ||| (pro0 &&& (gen >>> s)) with hg1
  set pro1 := pro0 &&& (pro0 >>> s) with hp1
  set gen2 := gen1 ||| (pro1 &&& (gen1 >>> (2 * s))) with hg2
  have h1 : gen1 < 2 ^ 64 := by
    rw [hg1]
    exact Nat.or_lt_two_pow h (lt_of_le_of_lt (le_trans Nat.and_le_right (shiftRight_self_le _ _)) h)
  have h2 : gen2 < 2 ^ 64 := by
    rw [hg2]
    exact Nat.or_lt_two_pow h1 (lt_of_le_of_lt (le_trans Nat.and_le_right (shiftRight_self_le _ _)) h1)
  exact Nat.or_lt_two_pow h2 (lt_of_le_of_lt (le_trans Nat.and_le_right (shiftRight_self_le _ _)) h2)

theorem laneFillSHL_lt (s M gen pro : Nat) (h : gen < 2 ^ 64) :
    laneFillSHL s M gen pro < 2 ^ 64 := by
  unfold laneFillSHL
  set pro0 := pro &&& M with hp0
  set gen1 := gen ||| (pro0 &&& shl64 gen s) with hg1
  set pro1 := pro0 &&& shl64 pro0 s with hp1
  set gen2 := gen1 ||| (pro1 &&& shl64 gen1 (2 * s)) with hg2
  have h1 : gen1 < 2 ^ 64 := by
    rw [hg1]
    exact Nat.or_lt_two_pow h (lt_of_le_of_lt Nat.and_le_right (shl64_lt _ _))
  have h2 : gen2 < 2 ^ 64 := by
    rw [hg2]
    exact Nat.or_lt_two_pow h1 (lt_of_le_of_lt Nat.and_le_right (shl64_lt _ _))
  exact Nat.or_lt_two_pow h2 (lt_of_le_of_lt Nat.and_le_right (shl64_lt _ _))

theorem get_moves_lt (b : Bitboard) : b.get_moves < 2 ^ 64 := by
  unfold Bitboard.get_moves
  have hM : ∀ s M x, M < 2 ^ 64 → laneShiftSHR s M x < 2 ^ 64 := by
    intro s M x hMlt
    exact lt_of_le_of_lt Nat.and_le_right hMlt
  have hL : ∀ s M x, M < 2 ^ 64 → laneShiftSHL s M x < 2 ^ 64 := by
    intro s M x hMlt
    exact lt_of_le_of_lt Nat.and_le_right hMlt
  refine lt_of_le_of_lt Nat.and_le_left ?_
  refine Nat.or_lt_two_pow ?_ ?_ <;>
    refine Nat.or_lt_two_pow (Nat.or_lt_two_pow (Nat.or_lt_two_pow ?_ ?_) ?_) ?_ <;>
    first
      | exact hM _ _ _ (by norm_num [NOT_A_FILE, NOT_H_FILE, FILLED])
      | exact hL _ _ _ (by norm_num [NOT_A_FILE, NOT_H_FILE, FILLED])

/-- The masks of `make_move` stay 64-bit and disjoint. -/
theorem make_move_wf (b : Bitboard) (m : Nat) (hwf : b.wf) (hm : m < 2 ^ 64) :
    (b.make_move m).wf := by
  obtain ⟨hdisj, hme, hop⟩ := hwf
  unfold Bitboard.make_move
  simp only
  set fW := laneFillSHR 1 NOT_H_FILE m b.op with hfW
  set fNE := laneFillSHR 7 NOT_A_FILE m b.op with hfNE
  set fN := laneFillSHR 8 FILLED m b.op with hfN
  set fNW := laneFillSHR 9 NOT_H_FILE m b.op with hfNW
  set fE := laneFillSHL 1 NOT_A_FILE m b.op with hfE
  set fSW := laneFillSHL 7 NOT_H_FILE m b.op with hfSW
  set fS := laneFillSHL 8 FILLED m b.op with hfS
  set fSE := laneFillSHL 9 NOT_A_FILE m b.op with hfSE
  have hsel : ∀ (c : Prop) [Decidable c] (f : Nat), f < 2 ^ 64 → (if c then f else 0) < 2 ^ 64 := by
    intro c _ f hf
    split
    · exact hf
    · norm_num
  have hswaps : ∀ swaps : Nat, swaps < 2 ^ 64 →
      (Bitboard.mk (b.op &&& compl64 swaps) (b.me ||| swaps)).wf := by
    intro swaps hs
    refine ⟨?_, lt_of_le_of_lt Nat.and_le_left hop, Nat.or_lt_two_pow hme hs⟩
    apply Nat.eq_of_testBit_eq
    intro i
    simp only [Nat.testBit_and, Nat.testBit_or, testBit_compl64, Nat.zero_testBit]
    have hdbit : (b.me &&& b.op).testBit i = false := by
      rw [hdisj]; exact Nat.zero_testBit i
    rw [Nat.testBit_and] at hdbit
    rcases Nat.lt_or_ge i 64 with hi | hi
    · rw [decide_eq_true hi]
      cases hmi : b.me.testBit i <;> cases hoi : b.op.testBit i <;>
        cases hsi : swaps.testBit i <;> simp_all
    · rw [testBit_ge_64 hop hi]
      simp
  exact hswaps _ (Nat.or_lt_two_pow
    (Nat.or_lt_two_pow
      (Nat.or_lt_two_pow (Nat.or_lt_two_pow (hsel _ _ (laneFillSHR_lt _ _ _ _ hm)) (hsel _ _ (laneFillSHR_lt _ _ _ _ hm))) (hsel _ _ (laneFillSHR_lt _ _ _ _ hm))) (hsel _ _ (laneFillSHR_lt _ _ _ _ hm)))
    (Nat.or_lt_two_pow
      (Nat.or_lt_two_pow (Nat.or_lt_two_pow (hsel _ _ (laneFillSHL_lt _ _ _ _ hm)) (hsel _ _ (laneFillSHL_lt _ _ _ _ hm))) (hsel _ _ (laneFillSHL_lt _ _ _ _ hm))) (hsel _ _ (laneFillSHL_lt _ _ _ _ hm))))

theorem pass_wf (b : Bitboard) (hwf : b.wf) : b.pass.wf := by
  obtain ⟨hdisj, hme, hop⟩ := hwf
  refine ⟨?_, hop, hme⟩
  apply Nat.eq_of_testBit_eq
  intro i
  have := congrArg (fun x => x.testBit i) hdisj
  simp only [Nat.testBit_and, Nat.zero_testBit] at this ⊢
  cases h1 : b.me.testBit i <;> cases h2 : b.op.testBit i <;> simp_all [Bitboard.pass]

theorem start_wf : Bitboard.start.wf := by
  refine ⟨by decide, by norm_num [Bitboard.start], by norm_num [Bitboard.start]⟩

/-- Every reachable bitboard is well-formed. -/
theorem reachableBB_wf (b : Bitboard) (h : ReachableBB b) : b.wf := by
  induction h with
  | start => exact start_wf
  | move hr hl ih =>
    obtain ⟨i, hi, rfl, _⟩ := hl
    exact make_move_wf _ _ ih (by rw [Nat.one_shiftLeft]; exact Nat.pow_lt_pow_right (by omega) hi)
  | pass hr ih => exact pass_wf _ ih

/-- C9: `pass` is an involution on the two masks, and `pass` swaps the
`mine` and `opponent` masks with no other change. -/
theorem C9_pass_involution (b : Bitboard) :
    b.pass.pass = b ∧ b.pass.me = b.op ∧ b.pass.op = b.me :=
  ⟨rfl, rfl, rfl⟩

/-- C8: `get_moves()` on the default starting board returns a mask with
exactly 4 set bits. -/
theorem C8_start_moves_count : count_ones Bitboard.start.get_moves = 4 := by decide

/-- C5: at a node with an empty move mask whose previous ply was a pass,
the recursive negamax evaluation returns exactly `score()`, for every
window and every positive remaining depth (the definition returns before
any recursive call). -/
theorem C5_terminal_eval (bb : Bitboard) (gs : GameState) (alpha beta : Int) (d : Nat)
    (hd : 0 < d) (hmoves : bb.get_moves = 0) (hlast : gs.get_last = MoveType.Pass) :
    negamax_impl bb gs alpha beta d = bb.score := by
  obtain ⟨d', rfl⟩ : ∃ d', d = d' + 1 := ⟨d - 1, by omega⟩
  simp [negamax_impl, hmoves, hlast]

theorem C5_witness :
    negamax_impl ⟨0, 0⟩ ⟨Side.Black, MoveType.Pass⟩ (-5) 5 3 = Bitboard.score ⟨0, 0⟩ :=
  C5_terminal_eval ⟨0, 0⟩ ⟨Side.Black, MoveType.Pass⟩ (-5) 5 3 (by decide) (by decide) rfl

theorem land_pow_eq (v i : Nat) : v &&& 2 ^ i = if v.testBit i = true then 2 ^ i else 0 := by
  apply Nat.eq_of_testBit_eq
  intro j
  split
  next hv =>
    rw [Nat.testBit_and, Nat.testBit_two_pow]
    rcases eq_or_ne i j with rfl | hne
    · simp [hv]
    · simp [hne]
  next hv =>
    rw [Nat.testBit_and, Nat.testBit_two_pow, Nat.zero_testBit]
    rcases eq_or_ne i j with rfl | hne
    · simp_all
    · simp [hne]

theorem land_pow_eq_zero_iff (v i : Nat) : v &&& 2 ^ i = 0 ↔ v.testBit i = false := by
  rw [land_pow_eq]
  split
  next hv =>
    have h2 : 0 < 2 ^ i := Nat.pos_pow_of_pos i (by omega)
    constructor
    · intro h; omega
    · intro h
      exact absurd h (by simp [hv])
  next hv => simp_all

theorem lowBitIdx_two_pow (t : Nat) : lowBitIdx (2 ^ t) = t := by
  induction t with
  | zero =>
    rw [lowBitIdx]
    norm_num
  | succ t ih =>
    have hp : 2 ^ (t + 1) = 2 ^ t * 2 := pow_succ 2 t
    have hpos : 0 < 2 ^ t := Nat.pos_pow_of_pos t (by omega)
    rw [lowBitIdx_even _ (by omega) (by omega), show 2 ^ (t + 1) / 2 = 2 ^ t by omega, ih]

theorem testBit_clear (v t j : Nat) (ht : t < 64) (hv : v < 2 ^ 64) :
    (v &&& compl64 (2 ^ t)).testBit j = (v.testBit j && !decide (j = t)) := by
  rw [Nat.testBit_and, testBit_compl64, Nat.testBit_two_pow]
  rcases Nat.lt_or_ge j 64 with hj | hj
  · rw [decide_eq_true hj]
    rcases eq_or_ne j t with rfl | hne
    · simp
    · have h1 : decide (t = j) = false := by simp [Ne.symm hne]
      have h2 : decide (j = t) = false := by simp [hne]
      rw [h1, h2]
      cases v.testBit j <;> rfl
  · rw [testBit_ge_64 hv hj]
    simp

theorem movesListGo_zero : movesListGo 0 = [] := by
  rw [movesListGo]
  simp

theorem movesListGo_cons (v : Nat) (h0 : v ≠ 0) (hv : v < 2 ^ 64) :
    movesListGo v =
      Move.Play (lowBitIdx v) :: movesListGo (v &&& compl64 (2 ^ lowBitIdx v)) := by
  have hiso : isolate_lsb v = 2 ^ lowBitIdx v := by
    show extract_lsb v = 2 ^ lowBitIdx v
    exact extract_lsb_eq v (Nat.pos_of_ne_zero h0) hv
  rw [movesListGo, dif_neg h0]
  simp only [trailing_zeros, hiso, lowBitIdx_two_pow]

theorem movesListGo_mem (v : Nat) (hv : v < 2 ^ 64) :
    (∀ i, (Move.Play i ∈ movesListGo v ↔ v.testBit i = true)) ∧ Move.Pass ∉ movesListGo v := by
  induction v using Nat.strong_induction_on with
  | _ v ih =>
    by_cases h0 : v = 0
    · subst h0
      simp [movesListGo_zero, Nat.zero_testBit]
    · have hpos : 0 < v := Nat.pos_of_ne_zero h0
      have ht : lowBitIdx v < 64 := lowBitIdx_lt_64 v hpos hv
      have hlt : v &&& compl64 (2 ^ lowBitIdx v) < v := by
        have h := clear_lsb_lt v h0
        rwa [extract_lsb_eq v hpos hv] at h
      have hrec := ih _ hlt (lt_trans hlt hv)
      rw [movesListGo_cons v h0 hv]
      refine ⟨fun i => ?_, ?_⟩
      · rw [List.mem_cons]
        constructor
        · rintro (heq | hmem)
          · cases heq
            exact testBit_lowBitIdx v hpos
          · have hb := (hrec.1 i).mp hmem
            rw [testBit_clear v _ i ht hv] at hb
            simp only [Bool.and_eq_true] at hb
            exact hb.1
        · intro hbit
          rcases eq_or_ne i (lowBitIdx v) with rfl | hne
          · exact Or.inl rfl
          · refine Or.inr ((hrec.1 i).mpr ?_)
            rw [testBit_clear v _ i ht hv, hbit]
            simp [hne]
      · rw [List.mem_cons]
        rintro (heq | hmem)
        · exact Move.noConfusion heq
        · exact hrec.2 hmem

theorem board_moves_of_ne (b : Board) (h0 : b.bitboard.get_moves ≠ 0) :
    b.get_moves = movesListGo b.bitboard.get_moves := by
  have hne : movesListGo b.bitboard.get_moves ≠ [] := by
    rw [movesListGo_cons _ h0 (get_moves_lt _)]
    simp
  simp [Board.get_moves, hne]

theorem board_moves_of_zero (b : Board) (h0 : b.bitboard.get_moves = 0) :
    b.get_moves = [Move.Pass] := by
  simp [Board.get_moves, h0, movesListGo_zero]

theorem mem_board_moves_play (b : Board) (idx : Nat) :
    Move.Play idx ∈ b.get_moves ↔ b.bitboard.get_moves.testBit idx = true := by
  by_cases h0 : b.bitboard.get_moves = 0
  · rw [board_moves_of_zero b h0, h0]
    simp [Nat.zero_testBit]
  · rw [board_moves_of_ne b h0]
    exact (movesListGo_mem _ (get_moves_lt _)).1 idx

theorem mem_board_moves_pass (b : Board) :
    Move.Pass ∈ b.get_moves ↔ b.bitboard.get_moves = 0 := by
  by_cases h0 : b.bitboard.get_moves = 0
  · rw [board_moves_of_zero b h0]
    simp [h0]
  · rw [board_moves_of_ne b h0]
    simpa [h0] using (movesListGo_mem _ (get_moves_lt _)).2

/-- C4: code bug — `Board::play` inverts its pass validation.  The claim
says `play` errors exactly when the move is not in the current
legal-move set, but on a `Pass` the code (`game/mod.rs:72`) errors when
`valid_moves == 0`, which is precisely when `Pass` is the only legal
move; its own comment ("There were non-pass moves") shows the intended
condition was `valid_moves != 0`.  Both halves of the divergence: at
the starting position, where `Pass` is not a legal move, `play
Move.Pass` succeeds and applies the pass; on an empty board, whose
legal-move list is exactly `[Pass]`, `play Move.Pass` errors. -/
theorem C4_pass_validation_inverted :
    (Move.Pass ∉ Board.start.get_moves ∧
      Board.start.play Move.Pass =
        (Except.ok (), ⟨Bitboard.start.pass, GameState.start.pass⟩)) ∧
    (Move.Pass ∈ (Board.mk ⟨0, 0⟩ GameState.start).get_moves ∧
      (Board.mk ⟨0, 0⟩ GameState.start).play Move.Pass =
        (Except.error InvalidMoveError.invalid, Board.mk ⟨0, 0⟩ GameState.start)) := by
  have h1 : Board.start.bitboard.get_moves ≠ 0 := by decide
  have h2 : (Bitboard.mk 0 0).get_moves = 0 := by decide
  refine ⟨⟨?_, ?_⟩, ?_, ?_⟩
  · rw [mem_board_moves_pass]
    exact h1
  · simp only [Board.play]
    rw [if_neg h1]
    rfl
  · rw [mem_board_moves_pass]
    exact h2
  · simp [Board.play, h2]

/-- C3: every bitboard reachable from the starting position by legal
`make_move` steps and `pass` steps has disjoint masks. -/
theorem C3_reachable_disjoint (b : Bitboard) (h : ReachableBB b) : b.me &&& b.op = 0 :=
  (reachableBB_wf b h).1

theorem C3_witness :
    (Bitboard.start.make_move (1 <<< 19)).me &&& (Bitboard.start.make_move (1 <<< 19)).op = 0 :=
  C3_reachable_disjoint _
    (ReachableBB.move ReachableBB.start ⟨19, by omega, rfl, by decide⟩)

theorem moveLoop_zero (f : Nat → Int → Int → Int) (alpha beta : Int) :
    moveLoop f 0 alpha beta = alpha := by
  rw [moveLoop]
  simp

theorem moveLoop_ne (f : Nat → Int → Int → Int) (valid : Nat) (alpha beta : Int)
    (h0 : valid ≠ 0) :
    moveLoop f valid alpha beta =
      (if beta ≤ -f (extract_lsb valid) (-beta) (-alpha) then beta
       else moveLoop f (valid &&& compl64 (extract_lsb valid))
         (if alpha < -f (extract_lsb valid) (-beta) (-alpha)
          then -f (extract_lsb valid) (-beta) (-alpha) else alpha) beta) := by
  conv_lhs => rw [moveLoop]
  rw [dif_neg h0]

theorem runningAlpha_zero (f : Nat → Int → Int → Int) (alpha beta : Int) :
    runningAlpha f 0 alpha beta = alpha := by
  rw [runningAlpha]
  simp

theorem runningAlpha_ne (f : Nat → Int → Int → Int) (valid : Nat) (alpha beta : Int)
    (h0 : valid ≠ 0) :
    runningAlpha f valid alpha beta =
      runningAlpha f (valid &&& compl64 (extract_lsb valid))
        (if alpha < -f (extract_lsb valid) (-beta) (-alpha)
         then -f (extract_lsb valid) (-beta) (-alpha) else alpha) beta := by
  conv_lhs => rw [runningAlpha]
  rw [dif_neg h0]

theorem cutoffFree_zero (f : Nat → Int → Int → Int) (alpha beta : Int) :
    cutoffFree f 0 alpha beta := by
  rw [cutoffFree]
  simp

theorem cutoffFree_ne (f : Nat → Int → Int → Int) (valid : Nat) (alpha beta : Int)
    (h0 : valid ≠ 0) :
    cutoffFree f valid alpha beta ↔
      (-f (extract_lsb valid) (-beta) (-alpha) < beta ∧
        cutoffFree f (valid &&& compl64 (extract_lsb valid))
          (if alpha < -f (extract_lsb valid) (-beta) (-alpha)
           then -f (extract_lsb valid) (-beta) (-alpha) else alpha) beta) := by
  conv_lhs => rw [cutoffFree]
  rw [dif_neg h0]

theorem fullLoop_zero (f : Nat → Int) : fullLoop f 0 = 0 := by
  rw [fullLoop]
  simp

theorem fullLoop_ne (f : Nat → Int) (valid : Nat) (h0 : valid ≠ 0) :
    fullLoop f valid =
      (if valid &&& compl64 (extract_lsb valid) = 0 then -f (extract_lsb valid)
       else max (-f (extract_lsb valid)) (fullLoop f (valid &&& compl64 (extract_lsb valid)))) := by
  conv_lhs => rw [fullLoop]
  rw [dif_neg h0]

/-- The move loop either fires a fail-hard cutoff (and then returns
exactly `beta`) or runs to exhaustion (and then returns the running
alpha). -/
theorem moveLoop_cutoff_char (f : Nat → Int → Int → Int) (beta : Int) :
    ∀ valid alpha,
      (¬ cutoffFree f valid alpha beta → moveLoop f valid alpha beta = beta) ∧
      (cutoffFree f valid alpha beta →
        moveLoop f valid alpha beta = runningAlpha f valid alpha beta) := by
  intro valid
  induction valid using Nat.strong_induction_on with
  | _ valid ih =>
    intro alpha
    by_cases h0 : valid = 0
    · subst h0
      exact ⟨fun hnc => absurd (cutoffFree_zero f alpha beta) hnc,
        fun _ => by rw [moveLoop_zero, runningAlpha_zero]⟩
    · rw [moveLoop_ne f valid alpha beta h0, cutoffFree_ne f valid alpha beta h0,
        runningAlpha_ne f valid alpha beta h0]
      by_cases hs : beta ≤ -f (extract_lsb valid) (-beta) (-alpha)
      · rw [if_pos hs]
        exact ⟨fun _ => rfl, fun hc => absurd hc.1 (by omega)⟩
      · rw [if_neg hs]
        have hrec := ih _ (clear_lsb_lt valid h0)
          (if alpha < -f (extract_lsb valid) (-beta) (-alpha)
           then -f (extract_lsb valid) (-beta) (-alpha) else alpha)
      
        exact ⟨fun hnc => hrec.1 (fun hc => hnc ⟨by omega, hc⟩),
          fun hc => hrec.2 hc.2⟩

/-- C6: in the recursive negamax evaluation, whenever a child's negated
score reaches `beta` the loop returns exactly `beta` (the bound, not the
child score), and otherwise, after exhausting all moves, it returns the
running alpha. -/
theorem C6_fail_hard (bb : Bitboard) (gs : GameState) (d : Nat) (valid : Nat)
    (alpha beta : Int) :
    (¬ cutoffFree (fun m a b => negamax_impl (bb.make_move m) gs.play a b d) valid alpha beta →
      moveLoop (fun m a b => negamax_impl (bb.make_move m) gs.play a b d) valid alpha beta = beta) ∧
    (cutoffFree (fun m a b => negamax_impl (bb.make_move m) gs.play a b d) valid alpha beta →
      moveLoop (fun m a b => negamax_impl (bb.make_move m) gs.play a b d) valid alpha beta =
        runningAlpha (fun m a b => negamax_impl (bb.make_move m) gs.play a b d) valid alpha beta) :=
  moveLoop_cutoff_char _ beta valid alpha

theorem rootLoop_all_play (bb : Bitboard) (gs : GameState) (d : Nat) :
    ∀ (l : List Move), Move.Pass ∉ l → ∀ bm bs, rootLoop bb gs d l bm bs ≠ none := by
  intro l
  induction l with
  | nil =>
    intro _ bm bs
    simp [rootLoop]
  | cons mv rest ih =>
    intro hnp bm bs
    cases mv with
    | Play idx =>
      have hrest : Move.Pass ∉ rest := fun hc => hnp (List.mem_cons_of_mem _ hc)
      simp only [rootLoop]
      split
      · exact ih hrest _ _
      · exact ih hrest _ _
    | Pass => exact absurd (List.mem_cons_self _ _) hnp

/-- C7: the root entry point returns nothing iff the depth is zero, or
the legal-move mask is empty and the last move was a pass. -/
theorem C7_root_none_iff (board : Board) (d : Nat) :
    negamax board d = none ↔
      (d = 0 ∨ (board.bitboard.get_moves = 0 ∧
        board.game_state.get_last = MoveType.Pass)) := by
  by_cases hd : d = 0
  · simp [negamax, hd]
  · simp only [negamax, if_neg hd]
    by_cases h0 : board.bitboard.get_moves = 0
    · rw [board_moves_of_zero board h0]
      simp only [List.head?_cons]
      by_cases hl : board.game_state.get_last = MoveType.Pass
      · simp [rootLoop, hl, hd, h0]
      · have hne : rootLoop board.bitboard board.game_state d [Move.Pass] Move.Pass
            (-2147483648) ≠ none := by
          simp only [rootLoop, if_neg hl]
          split
          · simp [rootLoop]
          · simp [rootLoop]
        constructor
        · intro hc
          exact absurd hc hne
        · rintro (hc | ⟨_, hc⟩)
          · exact absurd hc hd
          · exact absurd hc hl
    · rw [board_moves_of_ne board h0]
      have hnp : Move.Pass ∉ movesListGo board.bitboard.get_moves :=
        (movesListGo_mem _ (get_moves_lt _)).2
      have hcons := movesListGo_cons _ h0 (get_moves_lt board.bitboard)
      rw [hcons]
      simp only [List.head?_cons]
      rw [← hcons]
      have hne := rootLoop_all_play board.bitboard board.game_state d
        (movesListGo board.bitboard.get_moves) hnp
        (Move.Play (lowBitIdx board.bitboard.get_moves)) (-2147483648)
      constructor
      · intro hc
        exact absurd hc hne
      · rintro (hc | ⟨hc, _⟩)
        · exact absurd hc hd
        · exact absurd hc h0

theorem count_ones_le_64 (x : Nat) : count_ones x ≤ 64 := by
  unfold count_ones
  calc ((Finset.range 64).filter (fun i => x.testBit i)).card
      ≤ (Finset.range 64).card := Finset.card_filter_le _ _
    _ = 64 := Finset.card_range 64

theorem score_range (b : Bitboard) : -64 ≤ b.score ∧ b.score ≤ 64 := by
  unfold Bitboard.score
  have h1 := count_ones_le_64 b.me
  have h2 := count_ones_le_64 b.op
  omega

theorem fullLoop_range (f : Nat → Int) (h : ∀ m, -64 ≤ f m ∧ f m ≤ 64) :
    ∀ valid, -64 ≤ fullLoop f valid ∧ fullLoop f valid ≤ 64 := by
  intro valid
  induction valid using Nat.strong_induction_on with
  | _ valid ih =>
    by_cases h0 : valid = 0
    · subst h0
      rw [fullLoop_zero]
      omega
    · rw [fullLoop_ne f valid h0]
      have hm := h (extract_lsb valid)
      by_cases hrest : valid &&& compl64 (extract_lsb valid) = 0
      · rw [if_pos hrest]
        omega
      · rw [if_neg hrest]
        have hr := ih _ (clear_lsb_lt valid h0)
        rcases le_total (-f (extract_lsb valid)) (fullLoop f (valid &&& compl64 (extract_lsb valid))) with hc | hc
        · rw [max_eq_right hc]
          omega
        · rw [max_eq_left hc]
          omega

theorem fullWidth_range (bb : Bitboard) (gs : GameState) (d : Nat) :
    -64 ≤ negamaxFullWidth bb gs d ∧ negamaxFullWidth bb gs d ≤ 64 := by
  induction d generalizing bb gs with
  | zero =>
    simp only [negamaxFullWidth]
    exact score_range bb
  | succ d ih =>
    simp only [negamaxFullWidth]
    by_cases h0 : bb.get_moves = 0
    · rw [if_pos h0]
      by_cases hl : gs.get_last = MoveType.Pass
      · rw [if_pos hl]
        exact score_range bb
      · rw [if_neg hl]
        have := ih bb.pass gs.pass
        omega
    · rw [if_neg h0]
      exact fullLoop_range _ (fun m => by
        have := ih (bb.make_move m) gs.play
        omega) _

theorem moveLoop_ge_alpha (f : Nat → Int → Int → Int) (beta : Int) :
    ∀ valid alpha, alpha ≤ beta → alpha ≤ moveLoop f valid alpha beta := by
  intro valid
  induction valid using Nat.strong_induction_on with
  | _ valid ih =>
    intro alpha hab
    by_cases h0 : valid = 0
    · subst h0
      rw [moveLoop_zero]
    · rw [moveLoop_ne f valid alpha beta h0]
      by_cases hcut : beta ≤ -f (extract_lsb valid) (-beta) (-alpha)
      · rw [if_pos hcut]
        exact hab
      · rw [if_neg hcut]
        set s := -f (extract_lsb valid) (-beta) (-alpha) with hs
        by_cases hup : alpha < s
        · rw [if_pos hup]
          have hrec := ih _ (clear_lsb_lt valid h0) s (by omega)
          omega
        · rw [if_neg hup]
          have hrec := ih _ (clear_lsb_lt valid h0) alpha (by omega)
          omega

/-- The fail-hard alpha-beta move loop agrees with the full-width
maximum fold under the usual window relations, assuming the child
evaluations do. -/
theorem moveLoop_ab (fAB : Nat → Int → Int → Int) (fF : Nat → Int)
    (hchild : ∀ m a b, a < b →
      (fF m ≤ a → fAB m a b ≤ a) ∧ (b ≤ fF m → b ≤ fAB m a b) ∧
      (a < fF m → fF m < b → fAB m a b = fF m)) (beta : Int) :
    ∀ valid, valid ≠ 0 → ∀ alpha, alpha < beta →
      (fullLoop fF valid ≤ alpha → moveLoop fAB valid alpha beta ≤ alpha) ∧
      (beta ≤ fullLoop fF valid → moveLoop fAB valid alpha beta = beta) ∧
      (alpha < fullLoop fF valid → fullLoop fF valid < beta →
        moveLoop fAB valid alpha beta = fullLoop fF valid) := by
  intro valid
  induction valid using Nat.strong_induction_on with
  | _ valid ih =>
    intro h0 alpha hab
    set m := extract_lsb valid with hm
    set rest := valid &&& compl64 m with hrestdef
    set T := fF m with hT
    set s := -fAB m (-beta) (-alpha) with hs
    have hcw : (-beta : Int) < -alpha := by omega
    obtain ⟨hc1, hc2, hc3⟩ := hchild m (-beta) (-alpha) hcw
    -- translated child relations
    have hA : beta ≤ -T → beta ≤ s := fun h => by
      have := hc1 (by omega)
      omega
    have hB : -T ≤ alpha → s ≤ alpha := fun h => by
      have := hc2 (by omega)
      omega
    have hC : alpha < -T → -T < beta → s = -T := fun h1 h2 => by
      have := hc3 (by omega) (by omega)
      omega
    rw [moveLoop_ne fAB valid alpha beta h0, fullLoop_ne fF valid h0]
    rw [← hm, ← hrestdef, ← hT, ← hs]
    by_cases hrest : rest = 0
    · rw [if_pos hrest]
      by_cases hcut : beta ≤ s
      · rw [if_pos hcut]
        refine ⟨fun hFa => ?_, fun _ => rfl, fun hF1 hF2 => ?_⟩
        · have := hB hFa
          omega
        · have := hC hF1 hF2
          omega
      · rw [if_neg hcut]
        rw [hrest, moveLoop_zero]
        refine ⟨fun hFa => ?_, fun hFb => ?_, fun hF1 hF2 => ?_⟩
        · have := hB hFa
          split <;> omega
        · have := hA hFb
          omega
        · have := hC hF1 hF2
          split <;> omega
    · rw [if_neg hrest]
      set Fr := fullLoop fF rest with hFr
      have hlt : rest < valid := by
        rw [hrestdef, hm]
        exact clear_lsb_lt valid h0
      by_cases hcut : beta ≤ s
      · rw [if_pos hcut]
        have htm : beta ≤ -T := by
          by_contra hcon
          push_neg at hcon
          rcases le_or_lt (-T) alpha with hx | hx
          · have := hB hx
            omega
          · have := hC hx hcon
            omega
        refine ⟨fun hFa => ?_, fun _ => rfl, fun hF1 hF2 => ?_⟩
        · rcases le_total (-T) Fr with hmx | hmx
          · rw [max_eq_right hmx] at hFa
            omega
          · rw [max_eq_left hmx] at hFa
            omega
        · rcases le_total (-T) Fr with hmx | hmx
          · rw [max_eq_right hmx] at hF2
            omega
          · rw [max_eq_left hmx] at hF2
            omega
      · rw [if_neg hcut]
        push_neg at hcut
        have htm : -T < beta := by
          by_contra hcon
          push_neg at hcon
          have := hA hcon
          omega
        set alpha2 := if alpha < s then s else alpha with ha2
        have ha2b : alpha2 < beta := by
          rw [ha2]
          split <;> omega
        have hIH := ih rest hlt hrest alpha2 ha2b
        rw [← hFr] at hIH
        have hge : alpha2 ≤ moveLoop fAB rest alpha2 beta :=
          moveLoop_ge_alpha fAB beta rest alpha2 (by omega)
        refine ⟨fun hFa => ?_, fun hFb => ?_, fun hF1 hF2 => ?_⟩
        · -- max (-T) Fr ≤ alpha
          have hta : -T ≤ alpha := le_trans (le_max_left _ _) hFa
          have hra : Fr ≤ alpha := le_trans (le_max_right _ _) hFa
          have hsa := hB hta
          have ha2a : alpha2 = alpha := by
            rw [ha2]
            split <;> omega
          rw [ha2a] at hIH hge ⊢
          exact hIH.1 hra
        · -- beta ≤ max (-T) Fr
          rcases le_total (-T) Fr with hmx | hmx
          · rw [max_eq_right hmx] at hFb
            exact hIH.2.1 hFb
          · rw [max_eq_left hmx] at hFb
            omega
        · -- alpha < max (-T) Fr < beta
          have hrb : Fr < beta := lt_of_le_of_lt (le_max_right _ _) hF2
          have htb : -T < beta := lt_of_le_of_lt (le_max_left _ _) hF2
          rcases le_or_lt (-T) alpha with hS | hS
          · -- the first child does not raise alpha
            have hsa := hB hS
            have ha2a : alpha2 = alpha := by
              rw [ha2]
              split <;> omega
            have hFrg : alpha < Fr := by
              rcases le_total (-T) Fr with hmx | hmx
              · rw [max_eq_right hmx] at hF1
                exact hF1
              · rw [max_eq_left hmx] at hF1
                omega
            have hFeq : max (-T) Fr = Fr := max_eq_right (by omega)
            rw [hFeq, ha2a]
            rw [ha2a] at hIH
            exact hIH.2.2 hFrg hrb
          · -- the first child raises alpha to its exact score
            have hseq := hC hS htb
            have ha2a : alpha2 = -T := by
              rw [ha2]
              split <;> omega
            rcases le_total Fr (-T) with hmx | hmx
            · have hFeq : max (-T) Fr = -T := max_eq_left hmx
              rw [hFeq, ha2a]
              rw [ha2a] at hIH hge
              have := hIH.1 hmx
              omega
            · have hFeq : max (-T) Fr = Fr := max_eq_right hmx
              rw [hFeq, ha2a]
              rw [ha2a] at hIH hge
              rcases eq_or_lt_of_le hmx with heq | hlt2
              · have := hIH.1 (le_of_eq heq.symm)
                omega
              · exact hIH.2.2 hlt2 hrb

/-- Fail-hard alpha-beta returns the full-width negamax value clamped to
its window: the classical three-way correctness relation, proved by
induction on depth. -/
theorem negamax_ab_correct (d : Nat) :
    ∀ (bb : Bitboard) (gs : GameState) (alpha beta : Int), alpha < beta →
      (negamaxFullWidth bb gs d ≤ alpha → negamax_impl bb gs alpha beta d ≤ alpha) ∧
      (beta ≤ negamaxFullWidth bb gs d → beta ≤ negamax_impl bb gs alpha beta d) ∧
      (alpha < negamaxFullWidth bb gs d → negamaxFullWidth bb gs d < beta →
        negamax_impl bb gs alpha beta d = negamaxFullWidth bb gs d) := by
  induction d with
  | zero =>
    intro bb gs alpha beta hab
    have e1 : negamax_impl bb gs alpha beta 0 = bb.score := rfl
    have e2 : negamaxFullWidth bb gs 0 = bb.score := rfl
    rw [e1, e2]
    omega
  | succ d ih =>
    intro bb gs alpha beta hab
    simp only [negamax_impl, negamaxFullWidth]
    by_cases h0 : bb.get_moves = 0
    · rw [if_pos h0, if_pos h0]
      by_cases hl : gs.get_last = MoveType.Pass
      · rw [if_pos hl, if_pos hl]
        omega
      · rw [if_neg hl, if_neg hl]
        obtain ⟨c1, c2, c3⟩ := ih bb.pass gs.pass (-beta) (-alpha) (by omega)
        set fc := negamaxFullWidth bb.pass gs.pass d with hfc
        set ic := negamax_impl bb.pass gs.pass (-beta) (-alpha) d with hic
        refine ⟨fun h => ?_, fun h => ?_, fun h1 h2 => ?_⟩
        · have := c2 (by omega)
          omega
        · have := c1 (by omega)
          omega
        · have := c3 (by omega) (by omega)
          omega
    · rw [if_neg h0, if_neg h0]
      obtain ⟨l1, l2, l3⟩ := moveLoop_ab _ _
        (fun m a b hab2 => ih (bb.make_move m) gs.play a b hab2) beta
        bb.get_moves h0 alpha hab
      exact ⟨l1, fun h => le_of_eq (l2 h).symm, l3⟩

/-- The pruned and full-width root loops agree step by step: every child
score computed at the root's maximal window equals the full-width score. -/
theorem rootLoop_eq_full (bb : Bitboard) (gs : GameState) (d : Nat) :
    ∀ (l : List Move) (bm : Move) (bs : Int),
      rootLoop bb gs d l bm bs = rootLoopFull bb gs d l bm bs := by
  intro l
  induction l with
  | nil =>
    intro bm bs
    simp [rootLoop, rootLoopFull]
  | cons mv rest ih =>
    intro bm bs
    cases mv with
    | Play idx =>
      have hsc : negamax_impl (bb.make_move (1 <<< idx)) gs.play (-2147483647) 2147483647
          (d - 1) = negamaxFullWidth (bb.make_move (1 <<< idx)) gs.play (d - 1) := by
        have hc := (negamax_ab_correct (d - 1) (bb.make_move (1 <<< idx)) gs.play
          (-2147483647) 2147483647 (by omega)).2.2
        have hr := fullWidth_range (bb.make_move (1 <<< idx)) gs.play (d - 1)
        exact hc (by omega) (by omega)
      simp only [rootLoop, rootLoopFull, hsc]
      split
      · exact ih _ _
      · exact ih _ _
    | Pass =>
      by_cases hl : gs.get_last = MoveType.Pass
      · simp [rootLoop, rootLoopFull, hl]
      · have hsc : negamax_impl bb.pass gs.pass (-2147483647) 2147483647 (d - 1) =
            negamaxFullWidth bb.pass gs.pass (d - 1) := by
          have hc := (negamax_ab_correct (d - 1) bb.pass gs.pass
            (-2147483647) 2147483647 (by omega)).2.2
          have hr := fullWidth_range bb.pass gs.pass (d - 1)
          exact hc (by omega) (by omega)
        simp only [rootLoop, rootLoopFull, if_neg hl, hsc]
        split
        · exact ih _ _
        · exact ih _ _

/-- C2: for every reachable position and every depth from 1 to 4, the
`(Move, score)` pair returned by the pruning search equals that of the
unpruned full-width search over the same tree. -/
theorem C2_minimax_equivalence (bd : Board) (d : Nat) (hreach : ReachablePos bd)
    (h1 : 1 ≤ d) (h4 : d ≤ 4) :
    negamax bd d = negamaxFull bd d := by
  have hd : ¬ d = 0 := by omega
  simp only [negamax, negamaxFull, if_neg hd]
  cases hh : (bd.get_moves).head? with
  | none => rfl
  | some m0 => exact rootLoop_eq_full bd.bitboard bd.game_state d _ m0 _

theorem C2_witness : negamax Board.start 2 = negamaxFull Board.start 2 :=
  C2_minimax_equivalence Board.start 2 ReachablePos.start (by omega) (by omega)

theorem lor_land_shr_testBit (x p t n : Nat) :
    ((x ||| (p &&& (x >>> t))).testBit n = true) ↔
      (x.testBit n = true ∨ (p.testBit n = true ∧ x.testBit (n + t) = true)) := by
  rw [Nat.testBit_or, Nat.testBit_and, Nat.testBit_shiftRight, Nat.add_comm t n]
  simp

theorem land_shr_testBit (p q t n : Nat) :
    ((p &&& (q >>> t)).testBit n = true) ↔
      (p.testBit n = true ∧ q.testBit (n + t) = true) := by
  rw [Nat.testBit_and, Nat.testBit_shiftRight, Nat.add_comm t n]
  simp

theorem shl64_testBit (x t n : Nat) :
    ((shl64 x t).testBit n = true) ↔
      (n < 64 ∧ t ≤ n ∧ x.testBit (n - t) = true) := by
  unfold shl64
  rw [Nat.testBit_mod_two_pow, Nat.testBit_shiftLeft]
  simp [Bool.and_eq_true, and_assoc, ge_iff_le]

theorem lor_land_shl_testBit (x p t n : Nat) :
    ((x ||| (p &&& shl64 x t)).testBit n = true) ↔
      (x.testBit n = true ∨
        (p.testBit n = true ∧ n < 64 ∧ t ≤ n ∧ x.testBit (n - t) = true)) := by
  rw [Nat.testBit_or, Nat.testBit_and]
  cases hx : x.testBit n
  · simp only [Bool.false_or]
    rw [Bool.and_eq_true]
    rw [shl64_testBit]
    simp
  · simp

theorem land_shl_testBit (p q t n : Nat) :
    ((p &&& shl64 q t).testBit n = true) ↔
      (p.testBit n = true ∧ n < 64 ∧ t ≤ n ∧ q.testBit (n - t) = true) := by
  rw [Nat.testBit_and, Bool.and_eq_true, shl64_testBit]

/-- Chain characterization of one SHR Kogge-Stone lane: bit `i` of the
fill is set iff some generator bit lies `k ≤ 7` lane-steps above `i`,
with masked propagator bits at every position strictly below it down to
and including `i`. -/
theorem laneFillSHR_testBit (s M gen pro : Nat) (i : Nat) :
    ((laneFillSHR s M gen pro).testBit i = true) ↔
      (∃ k, k ≤ 7 ∧ gen.testBit (i + k * s) = true ∧
        ∀ j, j < k → (pro &&& M).testBit (i + j * s) = true) := by
  set pro0 := pro &&& M with hpro0
  set gen1 := gen ||| (pro0 &&& (gen >>> s)) with hgen1
  set pro1 := pro0 &&& (pro0 >>> s) with hpro1
  set gen2 := gen1 ||| (pro1 &&& (gen1 >>> (2 * s))) with hgen2
  set pro2 := pro1 &&& (pro1 >>> (2 * s)) with hpro2
  have hfill : laneFillSHR s M gen pro = gen2 ||| (pro2 &&& (gen2 >>> (4 * s))) := rfl
  have hg1 : ∀ n, (gen1.testBit n = true) ↔
      (gen.testBit n = true ∨ (pro0.testBit n = true ∧ gen.testBit (n + s) = true)) := by
    intro n
    rw [hgen1]
    exact lor_land_shr_testBit gen pro0 s n
  have hp1 : ∀ n, (pro1.testBit n = true) ↔
      (pro0.testBit n = true ∧ pro0.testBit (n + s) = true) := by
    intro n
    rw [hpro1]
    exact land_shr_testBit pro0 pro0 s n
  have hg2 : ∀ n, (gen2.testBit n = true) ↔
      (gen1.testBit n = true ∨ (pro1.testBit n = true ∧ gen1.testBit (n + 2 * s) = true)) := by
    intro n
    rw [hgen2]
    exact lor_land_shr_testBit gen1 pro1 (2 * s) n
  have hp2 : ∀ n, (pro2.testBit n = true) ↔
      (pro1.testBit n = true ∧ pro1.testBit (n + 2 * s) = true) := by
    intro n
    rw [hpro2]
    exact land_shr_testBit pro1 pro1 (2 * s) n
  have htop : ((laneFillSHR s M gen pro).testBit i = true) ↔
      (gen2.testBit i = true ∨ (pro2.testBit i = true ∧ gen2.testBit (i + 4 * s) = true)) := by
    rw [hfill]
    exact lor_land_shr_testBit gen2 pro2 (4 * s) i
  rw [htop]
  simp only [hg2, hg1, hp2, hp1]
  constructor
  · rintro (((hg | ⟨hp0, hg⟩) | ⟨⟨hp0, hp1x⟩, (hg | ⟨hp2x, hg⟩)⟩) |
      ⟨⟨⟨hp0, hp1x⟩, hp2x, hp3x⟩, ((hg | ⟨hp4x, hg⟩) |
        ⟨⟨hp4x, hp5x⟩, (hg | ⟨hp6x, hg⟩)⟩)⟩)
    · refine ⟨0, by omega, ?_, fun j hj => absurd hj (by omega)⟩
      rw [show i + 0 * s = i by ring]
      exact hg
    · refine ⟨1, by omega, ?_, ?_⟩
      · rw [show i + 1 * s = i + s by ring]
        exact hg
      · intro j hj
        interval_cases j
        rw [show i + 0 * s = i by ring]
        exact hp0
    · refine ⟨2, by omega, hg, ?_⟩
      intro j hj
      interval_cases j
      · rw [show i + 0 * s = i by ring]
        exact hp0
      · rw [show i + 1 * s = i + s by ring]
        exact hp1x
    · refine ⟨3, by omega, ?_, ?_⟩
      · rw [show i + 3 * s = i + 2 * s + s by ring]
        exact hg
      · intro j hj
        interval_cases j
        · rw [show i + 0 * s = i by ring]
          exact hp0
        · rw [show i + 1 * s = i + s by ring]
          exact hp1x
        · exact hp2x
    · refine ⟨4, by omega, hg, ?_⟩
      intro j hj
      interval_cases j
      · rw [show i + 0 * s = i by ring]
        exact hp0
      · rw [show i + 1 * s = i + s by ring]
        exact hp1x
      · exact hp2x
      · rw [show i + 3 * s = i + 2 * s + s by ring]
        exact hp3x
    · refine ⟨5, by omega, ?_, ?_⟩
      · rw [show i + 5 * s = i + 4 * s + s by ring]
        exact hg
      · intro j hj
        interval_cases j
        · rw [show i + 0 * s = i by ring]
          exact hp0
        · rw [show i + 1 * s = i + s by ring]
          exact hp1x
        · exact hp2x
        · rw [show i + 3 * s = i + 2 * s + s by ring]
          exact hp3x
        · exact hp4x
    · refine ⟨6, by omega, ?_, ?_⟩
      · rw [show i + 6 * s = i + 4 * s + 2 * s by ring]
        exact hg
      · intro j hj
        interval_cases j
        · rw [show i + 0 * s = i by ring]
          exact hp0
        · rw [show i + 1 * s = i + s by ring]
          exact hp1x
        · exact hp2x
        · rw [show i + 3 * s = i + 2 * s + s by ring]
          exact hp3x
        · exact hp4x
        · rw [show i + 5 * s = i + 4 * s + s by ring]
          exact hp5x
    · refine ⟨7, by omega, ?_, ?_⟩
      · rw [show i + 7 * s = i + 4 * s + 2 * s + s by ring]
        exact hg
      · intro j hj
        interval_cases j
        · rw [show i + 0 * s = i by ring]
          exact hp0
        · rw [show i + 1 * s = i + s by ring]
          exact hp1x
        · exact hp2x
        · rw [show i + 3 * s = i + 2 * s + s by ring]
          exact hp3x
        · exact hp4x
        · rw [show i + 5 * s = i + 4 * s + s by ring]
          exact hp5x
        · rw [show i + 6 * s = i + 4 * s + 2 * s by ring]
          exact hp6x
  · rintro ⟨k, hk, hG, hP⟩
    interval_cases k
    · rw [show i + 0 * s = i by ring] at hG
      exact Or.inl (Or.inl (Or.inl hG))
    · rw [show i + 1 * s = i + s by ring] at hG
      have p0 := hP 0 (by omega)
      rw [show i + 0 * s = i by ring] at p0
      exact Or.inl (Or.inl (Or.inr ⟨p0, hG⟩))
    · have p0 := hP 0 (by omega)
      have p1 := hP 1 (by omega)
      rw [show i + 0 * s = i by ring] at p0
      rw [show i + 1 * s = i + s by ring] at p1
      exact Or.inl (Or.inr ⟨⟨p0, p1⟩, Or.inl hG⟩)
    · rw [show i + 3 * s = i + 2 * s + s by ring] at hG
      have p0 := hP 0 (by omega)
      have p1 := hP 1 (by omega)
      have p2 := hP 2 (by omega)
      rw [show i + 0 * s = i by ring] at p0
      rw [show i + 1 * s = i + s by ring] at p1
      exact Or.inl (Or.inr ⟨⟨p0, p1⟩, Or.inr ⟨p2, hG⟩⟩)
    · have p0 := hP 0 (by omega)
      have p1 := hP 1 (by omega)
      have p2 := hP 2 (by omega)
      have p3 := hP 3 (by omega)
      rw [show i + 0 * s = i by ring] at p0
      rw [show i + 1 * s = i + s by ring] at p1
      rw [show i + 3 * s = i + 2 * s + s by ring] at p3
      exact Or.inr ⟨⟨⟨p0, p1⟩, p2, p3⟩, Or.inl (Or.inl hG)⟩
    · rw [show i + 5 * s = i + 4 * s + s by ring] at hG
      have p0 := hP 0 (by omega)
      have p1 := hP 1 (by omega)
      have p2 := hP 2 (by omega)
      have p3 := hP 3 (by omega)
      have p4 := hP 4 (by omega)
      rw [show i + 0 * s = i by ring] at p0
      rw [show i + 1 * s = i + s by ring] at p1
      rw [show i + 3 * s = i + 2 * s + s by ring] at p3
      exact Or.inr ⟨⟨⟨p0, p1⟩, p2, p3⟩, Or.inl (Or.inr ⟨p4, hG⟩)⟩
    · rw [show i + 6 * s = i + 4 * s + 2 * s by ring] at hG
      have p0 := hP 0 (by omega)
      have p1 := hP 1 (by omega)
      have p2 := hP 2 (by omega)
      have p3 := hP 3 (by omega)
      have p4 := hP 4 (by omega)
      have p5 := hP 5 (by omega)
      rw [show i + 0 * s = i by ring] at p0
      rw [show i + 1 * s = i + s by ring] at p1
      rw [show i + 3 * s = i + 2 * s + s by ring] at p3
      rw [show i + 5 * s = i + 4 * s + s by ring] at p5
      exact Or.inr ⟨⟨⟨p0, p1⟩, p2, p3⟩, Or.inr ⟨⟨p4, p5⟩, Or.inl hG⟩⟩
    · rw [show i + 7 * s = i + 4 * s + 2 * s + s by ring] at hG
      have p0 := hP 0 (by omega)
      have p1 := hP 1 (by omega)
      have p2 := hP 2 (by omega)
      have p3 := hP 3 (by omega)
      have p4 := hP 4 (by omega)
      have p5 := hP 5 (by omega)
      have p6 := hP 6 (by omega)
      rw [show i + 0 * s = i by ring] at p0
      rw [show i + 1 * s = i + s by ring] at p1
      rw [show i + 3 * s = i + 2 * s + s by ring] at p3
      rw [show i + 5 * s = i + 4 * s + s by ring] at p5
      rw [show i + 6 * s = i + 4 * s + 2 * s by ring] at p6
      exact Or.inr ⟨⟨⟨p0, p1⟩, p2, p3⟩, Or.inr ⟨⟨p4, p5⟩, Or.inr ⟨p6, hG⟩⟩⟩

/-- Chain characterization of one SHL Kogge-Stone lane: bit `i` of the
fill is set iff some generator bit lies `k ≤ 7` lane-steps below `i`,
with masked propagator bits at every position strictly above it up to
and including `i`. -/
theorem laneFillSHL_testBit (s M gen pro : Nat) (i : Nat) (hi : i < 64) :
    ((laneFillSHL s M gen pro).testBit i = true) ↔
      (∃ k, k ≤ 7 ∧ k * s ≤ i ∧ gen.testBit (i - k * s) = true ∧
        ∀ j, j < k → (pro &&& M).testBit (i - j * s) = true) := by
  set pro0 := pro &&& M with hpro0
  set gen1 := gen ||| (pro0 &&& shl64 gen s) with hgen1
  set pro1 := pro0 &&& shl64 pro0 s with hpro1
  set gen2 := gen1 ||| (pro1 &&& shl64 gen1 (2 * s)) with hgen2
  set pro2 := pro1 &&& shl64 pro1 (2 * s) with hpro2
  have hfill : laneFillSHL s M gen pro = gen2 ||| (pro2 &&& shl64 gen2 (4 * s)) := rfl
  have hg1 : ∀ n, (gen1.testBit n = true) ↔
      (gen.testBit n = true ∨
        (pro0.testBit n = true ∧ n < 64 ∧ s ≤ n ∧ gen.testBit (n - s) = true)) := by
    intro n
    rw [hgen1]
    exact lor_land_shl_testBit gen pro0 s n
  have hp1 : ∀ n, (pro1.testBit n = true) ↔
      (pro0.testBit n = true ∧ n < 64 ∧ s ≤ n ∧ pro0.testBit (n - s) = true) := by
    intro n
    rw [hpro1]
    exact land_shl_testBit pro0 pro0 s n
  have hg2 : ∀ n, (gen2.testBit n = true) ↔
      (gen1.testBit n = true ∨
        (pro1.testBit n = true ∧ n < 64 ∧ 2 * s ≤ n ∧ gen1.testBit (n - 2 * s) = true)) := by
    intro n
    rw [hgen2]
    exact lor_land_shl_testBit gen1 pro1 (2 * s) n
  have hp2 : ∀ n, (pro2.testBit n = true) ↔
      (pro1.testBit n = true ∧ n < 64 ∧ 2 * s ≤ n ∧ pro1.testBit (n - 2 * s) = true) := by
    intro n
    rw [hpro2]
    exact land_shl_testBit pro1 pro1 (2 * s) n
  have htop : ((laneFillSHL s M gen pro).testBit i = true) ↔
      (gen2.testBit i = true ∨
        (pro2.testBit i = true ∧ i < 64 ∧ 4 * s ≤ i ∧ gen2.testBit (i - 4 * s) = true)) := by
    rw [hfill]
    exact lor_land_shl_testBit gen2 pro2 (4 * s) i
  rw [htop]
  simp only [hg2, hg1, hp2, hp1]
  constructor
  · rintro (((hg | ⟨hp0, h1, hq1, hg⟩) |
      ⟨⟨hp0, h1, hq1, hp1x⟩, h2, hq2, (hg | ⟨hp2x, h3, hq3, hg⟩)⟩) |
      ⟨⟨⟨hp0, h1, hq1, hp1x⟩, h2, hq2, hp2x, h3, hq3, hp3x⟩, h4, hq4,
        ((hg | ⟨hp4x, h5, hq5, hg⟩) |
          ⟨⟨hp4x, h5, hq5, hp5x⟩, h6, hq6, (hg | ⟨hp6x, h7, hq7, hg⟩)⟩)⟩)
    · refine ⟨0, by omega, by omega, ?_, fun j hj => absurd hj (by omega)⟩
      rw [show i - 0 * s = i by omega]
      exact hg
    · refine ⟨1, by omega, by omega, ?_, ?_⟩
      · rw [show i - 1 * s = i - s by omega]
        exact hg
      · intro j hj
        interval_cases j
        rw [show i - 0 * s = i by omega]
        exact hp0
    · refine ⟨2, by omega, by omega, hg, ?_⟩
      intro j hj
      interval_cases j
      · rw [show i - 0 * s = i by omega]
        exact hp0
      · rw [show i - 1 * s = i - s by omega]
        exact hp1x
    · refine ⟨3, by omega, by omega, ?_, ?_⟩
      · rw [show i - 3 * s = i - 2 * s - s by omega]
        exact hg
      · intro j hj
        interval_cases j
        · rw [show i - 0 * s = i by omega]
          exact hp0
        · rw [show i - 1 * s = i - s by omega]
          exact hp1x
        · exact hp2x
    · refine ⟨4, by omega, by omega, hg, ?_⟩
      intro j hj
      interval_cases j
      · rw [show i - 0 * s = i by omega]
        exact hp0
      · rw [show i - 1 * s = i - s by omega]
        exact hp1x
      · exact hp2x
      · rw [show i - 3 * s = i - 2 * s - s by omega]
        exact hp3x
    · refine ⟨5, by omega, by omega, ?_, ?_⟩
      · rw [show i - 5 * s = i - 4 * s - s by omega]
        exact hg
      · intro j hj
        interval_cases j
        · rw [show i - 0 * s = i by omega]
          exact hp0
        · rw [show i - 1 * s = i - s by omega]
          exact hp1x
        · exact hp2x
        · rw [show i - 3 * s = i - 2 * s - s by omega]
          exact hp3x
        · exact hp4x
    · refine ⟨6, by omega, by omega, ?_, ?_⟩
      · rw [show i - 6 * s = i - 4 * s - 2 * s by omega]
        exact hg
      · intro j hj
        interval_cases j
        · rw [show i - 0 * s = i by omega]
          exact hp0
        · rw [show i - 1 * s = i - s by omega]
          exact hp1x
        · exact hp2x
        · rw [show i - 3 * s = i - 2 * s - s by omega]
          exact hp3x
        · exact hp4x
        · rw [show i - 5 * s = i - 4 * s - s by omega]
          exact hp5x
    · refine ⟨7, by omega, by omega, ?_, ?_⟩
      · rw [show i - 7 * s = i - 4 * s - 2 * s - s by omega]
        exact hg
      · intro j hj
        interval_cases j
        · rw [show i - 0 * s = i by omega]
          exact hp0
        · rw [show i - 1 * s = i - s by omega]
          exact hp1x
        · exact hp2x
        · rw [show i - 3 * s = i - 2 * s - s by omega]
          exact hp3x
        · exact hp4x
        · rw [show i - 5 * s = i - 4 * s - s by omega]
          exact hp5x
        · rw [show i - 6 * s = i - 4 * s - 2 * s by omega]
          exact hp6x
  · rintro ⟨k, hk, hks, hG, hP⟩
    interval_cases k
    · rw [show i - 0 * s = i by omega] at hG
      exact Or.inl (Or.inl (Or.inl hG))
    · rw [show i - 1 * s = i - s by omega] at hG
      have p0 := hP 0 (by omega)
      rw [show i - 0 * s = i by omega] at p0
      exact Or.inl (Or.inl (Or.inr ⟨p0, by omega, by omega, hG⟩))
    · have p0 := hP 0 (by omega)
      have p1 := hP 1 (by omega)
      rw [show i - 0 * s = i by omega] at p0
      rw [show i - 1 * s = i - s by omega] at p1
      exact Or.inl (Or.inr ⟨⟨p0, by omega, by omega, p1⟩, by omega, by omega, Or.inl hG⟩)
    · rw [show i - 3 * s = i - 2 * s - s by omega] at hG
      have p0 := hP 0 (by omega)
      have p1 := hP 1 (by omega)
      have p2 := hP 2 (by omega)
      rw [show i - 0 * s = i by omega] at p0
      rw [show i - 1 * s = i - s by omega] at p1
      exact Or.inl (Or.inr ⟨⟨p0, by omega, by omega, p1⟩, by omega, by omega,
        Or.inr ⟨p2, by omega, by omega, hG⟩⟩)
    · have p0 := hP 0 (by omega)
      have p1 := hP 1 (by omega)
      have p2 := hP 2 (by omega)
      have p3 := hP 3 (by omega)
      rw [show i - 0 * s = i by omega] at p0
      rw [show i - 1 * s = i - s by omega] at p1
      rw [show i - 3 * s = i - 2 * s - s by omega] at p3
      exact Or.inr ⟨⟨⟨p0, by omega, by omega, p1⟩, by omega, by omega,
        p2, by omega, by omega, p3⟩, by omega, by omega, Or.inl (Or.inl hG)⟩
    · rw [show i - 5 * s = i - 4 * s - s by omega] at hG
      have p0 := hP 0 (by omega)
      have p1 := hP 1 (by omega)
      have p2 := hP 2 (by omega)
      have p3 := hP 3 (by omega)
      have p4 := hP 4 (by omega)
      rw [show i - 0 * s = i by omega] at p0
      rw [show i - 1 * s = i - s by omega] at p1
      rw [show i - 3 * s = i - 2 * s - s by omega] at p3
      exact Or.inr ⟨⟨⟨p0, by omega, by omega, p1⟩, by omega, by omega,
        p2, by omega, by omega, p3⟩, by omega, by omega,
        Or.inl (Or.inr ⟨p4, by omega, by omega, hG⟩)⟩
    · rw [show i - 6 * s = i - 4 * s - 2 * s by omega] at hG
      have p0 := hP 0 (by omega)
      have p1 := hP 1 (by omega)
      have p2 := hP 2 (by omega)
      have p3 := hP 3 (by omega)
      have p4 := hP 4 (by omega)
      have p5 := hP 5 (by omega)
      rw [show i - 0 * s = i by omega] at p0
      rw [show i - 1 * s = i - s by omega] at p1
      rw [show i - 3 * s = i - 2 * s - s by omega] at p3
      rw [show i - 5 * s = i - 4 * s - s by omega] at p5
      exact Or.inr ⟨⟨⟨p0, by omega, by omega, p1⟩, by omega, by omega,
        p2, by omega, by omega, p3⟩, by omega, by omega,
        Or.inr ⟨⟨p4, by omega, by omega, p5⟩, by omega, by omega, Or.inl hG⟩⟩
    · rw [show i - 7 * s = i - 4 * s - 2 * s - s by omega] at hG
      have p0 := hP 0 (by omega)
      have p1 := hP 1 (by omega)
      have p2 := hP 2 (by omega)
      have p3 := hP 3 (by omega)
      have p4 := hP 4 (by omega)
      have p5 := hP 5 (by omega)
      have p6 := hP 6 (by omega)
      rw [show i - 0 * s = i by omega] at p0
      rw [show i - 1 * s = i - s by omega] at p1
      rw [show i - 3 * s = i - 2 * s - s by omega] at p3
      rw [show i - 5 * s = i - 4 * s - s by omega] at p5
      rw [show i - 6 * s = i - 4 * s - 2 * s by omega] at p6
      exact Or.inr ⟨⟨⟨p0, by omega, by omega, p1⟩, by omega, by omega,
        p2, by omega, by omega, p3⟩, by omega, by omega,
        Or.inr ⟨⟨p4, by omega, by omega, p5⟩, by omega, by omega,
          Or.inr ⟨p6, by omega, by omega, hG⟩⟩⟩

/-- The opposite of a direction. -/
def dirOpp : Dir → Dir
  | .W => .E
  | .NE => .SW
  | .N => .S
  | .NW => .SE
  | .E => .W
  | .SW => .NE
  | .S => .N
  | .SE => .NW

/-- Whether `n` consecutive geometric steps in direction `d` can be taken
from square `a`. -/
def chainFree (d : Dir) : Nat → Nat → Bool
  | 0, _ => true
  | n + 1, a =>
    match dirStep d a with
    | none => false
    | some b => chainFree d n b

/-- Position after `t` steps from `q` in direction `d`, each step landing
on an opponent disk (`none` when the opponent run is shorter than `t`). -/
def walkN (d : Dir) (op : Nat) (q : Nat) : Nat → Option Nat
  | 0 => some q
  | t + 1 =>
    match walkN d op q t with
    | none => none
    | some a =>
      match dirStep d a with
      | none => none
      | some b => if op.testBit b then some b else none

theorem walkN_front (d : Dir) (op : Nat) (a : Nat) :
    ∀ t, walkN d op a (t + 1) =
      (match dirStep d a with
       | none => none
       | some b => if op.testBit b then walkN d op b t else none) := by
  intro t
  induction t with
  | zero =>
    simp only [walkN]
  | succ t ih =>
    conv_lhs => rw [walkN]
    rw [ih]
    cases hd : dirStep d a with
    | none => rfl
    | some b =>
      by_cases hb : op.testBit b = true
      · simp only [hb, if_true]
        conv_rhs => rw [walkN]
      · simp only [Bool.not_eq_true] at hb
        simp [hb]

theorem walkN_shift (d : Dir) (op : Nat) (a b : Nat) (hd : dirStep d a = some b)
    (hb : op.testBit b = true) (t : Nat) :
    walkN d op a (t + 1) = walkN d op b t := by
  rw [walkN_front, hd]
  simp [hb]

theorem walkN_none_succ (d : Dir) (op : Nat) (q : Nat) (t : Nat)
    (h : walkN d op q t = none) : walkN d op q (t + 1) = none := by
  show (match walkN d op q t with
    | none => none
    | some a =>
      match dirStep d a with
      | none => none
      | some b => if op.testBit b then some b else none) = none
  rw [h]

theorem walkN_none_mono (d : Dir) (op : Nat) (q : Nat) (t u : Nat) (htu : t ≤ u)
    (h : walkN d op q t = none) : walkN d op q u = none := by
  induction u with
  | zero =>
    have : t = 0 := by omega
    subst this
    exact h
  | succ u ih =>
    rcases Nat.lt_or_ge t (u + 1) with hc | hc
    · exact walkN_none_succ d op q u (ih (by omega))
    · have : t = u + 1 := by omega
      subst this
      exact h

theorem walkN_chainFree (d : Dir) (op : Nat) :
    ∀ t a i, walkN d op a t = some i → chainFree d t a = true := by
  intro t
  induction t with
  | zero =>
    intro a i _
    rfl
  | succ t ih =>
    intro a i h
    rw [walkN_front] at h
    show (match dirStep d a with
      | none => false
      | some b => chainFree d t b) = true
    cases hd : dirStep d a with
    | none =>
      simp only [hd] at h
      exact Option.noConfusion h
    | some b =>
      simp only [hd] at h
      by_cases hb : op.testBit b = true
      · rw [if_pos hb] at h
        show chainFree d t b = true
        exact ih b i h
      · rw [if_neg hb] at h
        exact Option.noConfusion h

/-- No square of the board admits 8 consecutive steps in one direction. -/
theorem chainFree_8_false : ∀ a, a < 64 → ∀ d : Dir, chainFree d 8 a = false := by decide

theorem walkN_8_none (d : Dir) (op : Nat) (q : Nat) (hq : q < 64) :
    walkN d op q 8 = none := by
  cases h : walkN d op q 8 with
  | none => rfl
  | some i =>
    have hcf := walkN_chainFree d op 8 q i h
    rw [chainFree_8_false q hq d] at hcf
    exact Bool.noConfusion hcf

theorem walkN_le_7 (d : Dir) (op : Nat) (q : Nat) (hq : q < 64) (t : Nat) (i : Nat)
    (h : walkN d op q t = some i) : t ≤ 7 := by
  by_contra hc
  push_neg at hc
  have h8 := walkN_8_none d op q hq
  have := walkN_none_mono d op q 8 t (by omega) h8
  rw [this] at h
  exact Option.noConfusion h

/-- Characterization of `flankedWalk`: the walk from `a` is flanked iff
some opponent-run prefix ends at a square whose next step lands on a
friendly (and non-opponent) disk. -/
theorem flankedWalk_char (me op : Nat) (d : Dir) :
    ∀ fuel a, (flankedWalk me op d fuel a = true ↔
      (∃ t, t + 1 ≤ fuel ∧ ∃ e c, walkN d op a t = some e ∧ dirStep d e = some c ∧
        op.testBit c = false ∧ me.testBit c = true)) := by
  intro fuel
  induction fuel with
  | zero =>
    intro a
    constructor
    · intro h
      exact Bool.noConfusion h
    · rintro ⟨t, ht, _⟩
      omega
  | succ fuel ih =>
    intro a
    cases hd : dirStep d a with
    | none =>
      have hred : flankedWalk me op d (fuel + 1) a = false := by
        show (match dirStep d a with
          | none => false
          | some b => if op.testBit b then flankedWalk me op d fuel b else me.testBit b) = false
        rw [hd]
      rw [hred]
      constructor
      · intro h
        exact Bool.noConfusion h
      · rintro ⟨t, ht, e, c, hw, hsc, _⟩
        cases t with
        | zero =>
          rw [show walkN d op a 0 = some a from rfl] at hw
          cases hw
          rw [hd] at hsc
          exact Option.noConfusion hsc
        | succ t =>
          rw [walkN_front, hd] at hw
          exact Option.noConfusion hw
    | some b =>
      have hred : flankedWalk me op d (fuel + 1) a =
          (if op.testBit b = true then flankedWalk me op d fuel b else me.testBit b) := by
        show (match dirStep d a with
          | none => false
          | some b => if op.testBit b then flankedWalk me op d fuel b else me.testBit b) = _
        rw [hd]
      rw [hred]
      by_cases hb : op.testBit b = true
      · rw [if_pos hb]
        rw [ih b]
        constructor
        · rintro ⟨t, ht, e, c, hw, hsc, hoc, hmc⟩
          exact ⟨t + 1, by omega, e, c, by rw [walkN_shift d op a b hd hb]; exact hw,
            hsc, hoc, hmc⟩
        · rintro ⟨t, ht, e, c, hw, hsc, hoc, hmc⟩
          cases t with
          | zero =>
            rw [show walkN d op a 0 = some a from rfl] at hw
            cases hw
            rw [hd] at hsc
            cases hsc
            rw [hb] at hoc
            exact Bool.noConfusion hoc
          | succ t =>
            rw [walkN_shift d op a b hd hb] at hw
            exact ⟨t, by omega, e, c, hw, hsc, hoc, hmc⟩
      · simp only [Bool.not_eq_true] at hb
        rw [hb]
        rw [if_neg (fun hc => Bool.noConfusion hc)]
        constructor
        · intro hmb
          exact ⟨0, by omega, a, b, rfl, hd, hb, hmb⟩
        · rintro ⟨t, ht, e, c, hw, hsc, hoc, hmc⟩
          cases t with
          | zero =>
            rw [show walkN d op a 0 = some a from rfl] at hw
            cases hw
            rw [hd] at hsc
            cases hsc
            exact hmc
          | succ t =>
            rw [walkN_front] at hw
            simp only [hd] at hw
            rw [hb] at hw
            rw [if_neg (fun hc => Bool.noConfusion hc)] at hw
            exact Option.noConfusion hw

theorem flipWalk_unfold (me op : Nat) (d : Dir) (fuel a acc : Nat) :
    flipWalk me op d (fuel + 1) a acc =
      (match dirStep d a with
       | none => 0
       | some b =>
         if op.testBit b then flipWalk me op d fuel b (acc ||| (1 <<< b))
         else if me.testBit b then acc
         else 0) := rfl

theorem flankedWalk_unfold (me op : Nat) (d : Dir) (fuel a : Nat) :
    flankedWalk me op d (fuel + 1) a =
      (match dirStep d a with
       | none => false
       | some b => if op.testBit b then flankedWalk me op d fuel b else me.testBit b) := rfl

/-- The accumulator of `flipWalk` is returned unchanged (and OR-ed with
the collected run) exactly when the walk is flanked; otherwise the walk
returns `0` regardless of the accumulator. -/
theorem flipWalk_acc (me op : Nat) (d : Dir) :
    ∀ fuel a acc, flipWalk me op d fuel a acc =
      if flankedWalk me op d fuel a = true then acc ||| flipWalk me op d fuel a 0
      else 0 := by
  intro fuel
  induction fuel with
  | zero =>
    intro a acc
    show (0 : Nat) = if (false = true) then _ else 0
    rw [if_neg (fun hc => Bool.noConfusion hc)]
  | succ fuel ih =>
    intro a acc
    rw [flipWalk_unfold, flipWalk_unfold, flankedWalk_unfold]
    cases hd : dirStep d a with
    | none =>
      simp only
      rw [if_neg (fun hc => Bool.noConfusion hc)]
    | some b =>
      simp only
      by_cases hb : op.testBit b = true
      · rw [ih b (acc ||| (1 <<< b)), ih b (0 ||| (1 <<< b))]
        by_cases hf : flankedWalk me op d fuel b = true
        · simp [hb, hf, Nat.or_assoc]
        · simp [hb, hf]
      · simp only [Bool.not_eq_true] at hb
        by_cases hm : me.testBit b = true
        · simp [hb, hm]
        · simp only [Bool.not_eq_true] at hm
          simp [hb, hm]

/-- Bit characterization of the flip walk (with empty accumulator): a bit
is collected iff the walk is flanked and the bit is one of the opponent
run's squares. -/
theorem flipWalk_testBit (me op : Nat) (d : Dir) :
    ∀ fuel a i, ((flipWalk me op d fuel a 0).testBit i = true) ↔
      (flankedWalk me op d fuel a = true ∧ ∃ t, 1 ≤ t ∧ walkN d op a t = some i) := by
  intro fuel
  induction fuel with
  | zero =>
    intro a i
    show ((0 : Nat).testBit i = true) ↔ ((false = true) ∧ _)
    rw [Nat.zero_testBit]
    simp
  | succ fuel ih =>
    intro a i
    rw [flipWalk_unfold, flankedWalk_unfold]
    cases hd : dirStep d a with
    | none =>
      simp only
      rw [Nat.zero_testBit]
      simp
    | some b =>
      simp only
      by_cases hb : op.testBit b = true
      · rw [if_pos hb, if_pos hb]
        rw [flipWalk_acc me op d fuel b (0 ||| (1 <<< b))]
        by_cases hf : flankedWalk me op d fuel b = true
        · rw [if_pos hf]
          constructor
          · intro hbit
            rw [Nat.testBit_or, Nat.testBit_or, Nat.zero_testBit, Nat.one_shiftLeft,
              Nat.testBit_two_pow] at hbit
            refine ⟨hf, ?_⟩
            have hcases : b = i ∨ (flipWalk me op d fuel b 0).testBit i = true := by
              simpa using hbit
            rcases hcases with hcase | hcase
            · refine ⟨1, by omega, ?_⟩
              rw [walkN_shift d op a b hd hb, ← hcase]
              rfl
            · obtain ⟨_, t, ht1, hw⟩ := (ih b i).mp hcase
              refine ⟨t + 1, by omega, ?_⟩
              rw [walkN_shift d op a b hd hb]
              exact hw
          · rintro ⟨_, t, ht1, hw⟩
            obtain ⟨t', rfl⟩ : ∃ t', t = t' + 1 := ⟨t - 1, by omega⟩
            rw [walkN_shift d op a b hd hb] at hw
            rw [Nat.testBit_or, Nat.testBit_or, Nat.zero_testBit, Nat.one_shiftLeft,
              Nat.testBit_two_pow]
            cases t' with
            | zero =>
              have hbi : b = i := by
                rw [show walkN d op b 0 = some b from rfl] at hw
                exact Option.some.inj hw
              simp [hbi]
            | succ t' =>
              have hw0 : (flipWalk me op d fuel b 0).testBit i = true :=
                (ih b i).mpr ⟨hf, t' + 1, by omega, hw⟩
              simp [hw0]
        · rw [if_neg hf]
          rw [Nat.zero_testBit]
          constructor
          · intro h
            exact Bool.noConfusion h
          · rintro ⟨hfk, _⟩
            exact absurd hfk hf
      · simp only [Bool.not_eq_true] at hb
        rw [hb]
        have hfe1 : ∀ (x y : Nat), (if false = true then x else y) = y :=
          fun x y => if_neg (fun hc => Bool.noConfusion hc)
        have hfe2 : ∀ (x y : Bool), (if false = true then x else y) = y :=
          fun x y => if_neg (fun hc => Bool.noConfusion hc)
        simp only [hfe1, hfe2]
        have hw1 : walkN d op a 1 = none := by
          rw [walkN_front]
          simp only [hd]
          rw [hb]
          exact if_neg (fun hc => Bool.noConfusion hc)
        have hzero : (if me.testBit b = true then (0 : Nat) else 0) = 0 := by
          split <;> rfl
        rw [hzero, Nat.zero_testBit]
        constructor
        · intro h
          exact Bool.noConfusion h
        · rintro ⟨_, t, ht1, hw⟩
          obtain ⟨t', rfl⟩ : ∃ t', t = t' + 1 := ⟨t - 1, by omega⟩
          have hnone := walkN_none_mono d op a 1 (t' + 1) (by omega) hw1
          rw [hnone] at hw
          exact Option.noConfusion hw

/-- Build a walk from explicit per-step facts. -/
theorem walkN_build (d : Dir) (op : Nat) (q : Nat) :
    ∀ (k : Nat) (pos : Nat → Nat), pos 0 = q →
      (∀ j, j < k → dirStep d (pos j) = some (pos (j + 1)) ∧ op.testBit (pos (j + 1)) = true) →
      walkN d op q k = some (pos k) := by
  intro k
  induction k with
  | zero =>
    intro pos h0 _
    rw [← h0]
    rfl
  | succ k ih =>
    intro pos h0 hstep
    have hk := ih pos h0 (fun j hj => hstep j (by omega))
    conv_lhs => rw [walkN]
    rw [hk]
    simp only
    rw [(hstep k (by omega)).1]
    simp [(hstep k (by omega)).2]

/-- The SHR-sense lane step in index arithmetic: destination `a - s`,
valid when the lane's edge mask admits the destination. -/
def stepSHR (s M a : Nat) : Option Nat :=
  if s ≤ a ∧ M.testBit (a - s) = true then some (a - s) else none

/-- The SHL-sense lane step: destination `a + s`. -/
def stepSHL (s M a : Nat) : Option Nat :=
  if a + s < 64 ∧ M.testBit (a + s) = true then some (a + s) else none

/-- Arithmetic characterization of opponent-run walks along an SHR-sense
direction. -/
theorem walkN_SHR_char (d : Dir) (s M op : Nat)
    (hbr : ∀ a, a < 64 → dirStep d a = stepSHR s M a) (q : Nat) (hq : q < 64) :
    ∀ t i, (walkN d op q t = some i ↔
      (t * s ≤ q ∧ i = q - t * s ∧
        ∀ j, 1 ≤ j → j ≤ t → (op &&& M).testBit (q - j * s) = true)) := by
  intro t
  induction t with
  | zero =>
    intro i
    rw [show walkN d op q 0 = some q from rfl]
    constructor
    · intro h
      have hqi : q = i := Option.some.inj h
      refine ⟨by simp, by omega, fun j h1 h2 => absurd h2 (by omega)⟩
    · rintro ⟨_, hi, _⟩
      rw [hi]
      rw [show q - 0 * s = q by simp]
  | succ t ih =>
    intro i
    have hmul : (t + 1) * s = t * s + s := by
      rw [Nat.succ_mul]
    cases h : walkN d op q t with
    | none =>
      have hnone : walkN d op q (t + 1) = none := walkN_none_succ d op q t h
      rw [hnone]
      constructor
      · intro hc
        exact Option.noConfusion hc
      · rintro ⟨hks, hi, hchain⟩
        have hts : t * s ≤ q := by omega
        have hsome := (ih (q - t * s)).mpr ⟨hts, rfl,
          fun j h1 h2 => hchain j h1 (by omega)⟩
        rw [h] at hsome
        exact Option.noConfusion hsome
    | some a =>
      obtain ⟨hts, ha, hchain⟩ := (ih a).mp h
      have ha64 : a < 64 := by omega
      have hlast : walkN d op q (t + 1) =
          (match dirStep d a with
           | none => none
           | some b => if op.testBit b then some b else none) := by
        conv_lhs => rw [walkN]
        rw [h]
      rw [hlast, hbr a ha64]
      unfold stepSHR
      by_cases hc : s ≤ a ∧ M.testBit (a - s) = true
      · rw [if_pos hc]
        simp only
        have hpos : a - s = q - (t + 1) * s := by
          rw [ha, Nat.sub_sub, ← hmul]
        by_cases hob : op.testBit (a - s) = true
        · rw [if_pos hob]
          constructor
          · intro hsome
            have hieq : a - s = i := Option.some.inj hsome
            refine ⟨by omega, by omega, ?_⟩
            intro j h1 h2
            rcases Nat.lt_or_ge j (t + 1) with hj | hj
            · exact hchain j h1 (by omega)
            · have hjeq : j = t + 1 := by omega
              subst hjeq
              rw [Nat.testBit_and]
              rw [← hpos, hob, hc.2]
              rfl
          · rintro ⟨hks, hi, _⟩
            rw [hpos, ← hi]
        · rw [if_neg hob]
          constructor
          · intro hcon
            exact Option.noConfusion hcon
          · rintro ⟨hks, hi, hchain2⟩
            have := hchain2 (t + 1) (by omega) (by omega)
            rw [Nat.testBit_and, ← hpos] at this
            rw [Bool.and_eq_true] at this
            exact absurd this.1 hob
      · rw [if_neg hc]
        constructor
        · intro hcon
          exact Option.noConfusion hcon
        · rintro ⟨hks, hi, hchain2⟩
          have hp := hchain2 (t + 1) (by omega) (by omega)
          rw [Nat.testBit_and, ← (show a - s = q - (t + 1) * s by
            rw [ha, Nat.sub_sub, ← hmul])] at hp
          rw [Bool.and_eq_true] at hp
          exact absurd ⟨by omega, hp.2⟩ hc

/-- Arithmetic characterization of opponent-run walks along an SHL-sense
direction. -/
theorem walkN_SHL_char (d : Dir) (s M op : Nat)
    (hbr : ∀ a, a < 64 → dirStep d a = stepSHL s M a) (q : Nat) (hq : q < 64) :
    ∀ t i, (walkN d op q t = some i ↔
      (q + t * s < 64 ∧ i = q + t * s ∧
        ∀ j, 1 ≤ j → j ≤ t → (op &&& M).testBit (q + j * s) = true)) := by
  intro t
  induction t with
  | zero =>
    intro i
    rw [show walkN d op q 0 = some q from rfl]
    constructor
    · intro h
      have hqi : q = i := Option.some.inj h
      refine ⟨by simpa using hq, by omega, fun j h1 h2 => absurd h2 (by omega)⟩
    · rintro ⟨_, hi, _⟩
      rw [hi]
      rw [show q + 0 * s = q by simp]
  | succ t ih =>
    intro i
    have hmul : (t + 1) * s = t * s + s := by
      rw [Nat.succ_mul]
    cases h : walkN d op q t with
    | none =>
      have hnone : walkN d op q (t + 1) = none := walkN_none_succ d op q t h
      rw [hnone]
      constructor
      · intro hc
        exact Option.noConfusion hc
      · rintro ⟨hks, hi, hchain⟩
        have hts : q + t * s < 64 := by omega
        have hsome := (ih (q + t * s)).mpr ⟨hts, rfl,
          fun j h1 h2 => hchain j h1 (by omega)⟩
        rw [h] at hsome
        exact Option.noConfusion hsome
    | some a =>
      obtain ⟨hts, ha, hchain⟩ := (ih a).mp h
      have ha64 : a < 64 := by omega
      have hlast : walkN d op q (t + 1) =
          (match dirStep d a with
           | none => none
           | some b => if op.testBit b then some b else none) := by
        conv_lhs => rw [walkN]
        rw [h]
      rw [hlast, hbr a ha64]
      unfold stepSHL
      have hpos : a + s = q + (t + 1) * s := by omega
      by_cases hc : a + s < 64 ∧ M.testBit (a + s) = true
      · rw [if_pos hc]
        simp only
        by_cases hob : op.testBit (a + s) = true
        · rw [if_pos hob]
          constructor
          · intro hsome
            have hieq : a + s = i := Option.some.inj hsome
            refine ⟨by omega, by omega, ?_⟩
            intro j h1 h2
            rcases Nat.lt_or_ge j (t + 1) with hj | hj
            · exact hchain j h1 (by omega)
            · have hjeq : j = t + 1 := by omega
              subst hjeq
              rw [Nat.testBit_and]
              rw [← hpos, hob, hc.2]
              rfl
          · rintro ⟨hks, hi, _⟩
            rw [hpos, ← hi]
        · rw [if_neg hob]
          constructor
          · intro hcon
            exact Option.noConfusion hcon
          · rintro ⟨hks, hi, hchain2⟩
            have := hchain2 (t + 1) (by omega) (by omega)
            rw [Nat.testBit_and, ← hpos] at this
            rw [Bool.and_eq_true] at this
            exact absurd this.1 hob
      · rw [if_neg hc]
        constructor
        · intro hcon
          exact Option.noConfusion hcon
        · rintro ⟨hks, hi, hchain2⟩
          have hp := hchain2 (t + 1) (by omega) (by omega)
          rw [Nat.testBit_and, ← hpos] at hp
          rw [Bool.and_eq_true] at hp
          exact absurd ⟨by omega, hp.2⟩ hc

/-- The SHR fill from a single-bit generator collects exactly the walk
positions (the played square plus the opponent run). -/
theorem fillSHR_walk (d : Dir) (s M op : Nat)
    (hbr : ∀ a, a < 64 → dirStep d a = stepSHR s M a) (q : Nat) (hq : q < 64) (i : Nat) :
    ((laneFillSHR s M (1 <<< q) op).testBit i = true) ↔ (∃ k, walkN d op q k = some i) := by
  rw [Nat.one_shiftLeft, laneFillSHR_testBit]
  constructor
  · rintro ⟨k, hk7, hG, hP⟩
    rw [Nat.testBit_two_pow] at hG
    have hqe : q = i + k * s := of_decide_eq_true hG
    refine ⟨k, (walkN_SHR_char d s M op hbr q hq k i).mpr ⟨by omega, by omega, ?_⟩⟩
    intro j h1 h2
    have hp := hP (k - j) (by omega)
    have e1 : (k - j) * s = k * s - j * s := Nat.sub_mul k j s
    have e2 : j * s ≤ k * s := Nat.mul_le_mul_right s (by omega)
    have hpos : i + (k - j) * s = q - j * s := by omega
    rwa [hpos] at hp
  · rintro ⟨k, hw⟩
    have hk7 := walkN_le_7 d op q hq k i hw
    obtain ⟨hks, hieq, hchain⟩ := (walkN_SHR_char d s M op hbr q hq k i).mp hw
    refine ⟨k, hk7, ?_, ?_⟩
    · rw [Nat.testBit_two_pow]
      exact decide_eq_true (by omega)
    · intro j hj
      have hp := hchain (k - j) (by omega) (by omega)
      have e1 : (k - j) * s = k * s - j * s := Nat.sub_mul k j s
      have e2 : j * s ≤ k * s := Nat.mul_le_mul_right s (by omega)
      have hpos : q - (k - j) * s = i + j * s := by omega
      rwa [hpos] at hp

/-- The SHL fill from a single-bit generator collects exactly the walk
positions. -/
theorem fillSHL_walk (d : Dir) (s M op : Nat)
    (hbr : ∀ a, a < 64 → dirStep d a = stepSHL s M a) (q : Nat) (hq : q < 64) (i : Nat)
    (hi : i < 64) :
    ((laneFillSHL s M (1 <<< q) op).testBit i = true) ↔ (∃ k, walkN d op q k = some i) := by
  rw [Nat.one_shiftLeft, laneFillSHL_testBit _ _ _ _ i hi]
  constructor
  · rintro ⟨k, hk7, hks, hG, hP⟩
    rw [Nat.testBit_two_pow] at hG
    have hqe : q = i - k * s := of_decide_eq_true hG
    refine ⟨k, (walkN_SHL_char d s M op hbr q hq k i).mpr ⟨by omega, by omega, ?_⟩⟩
    intro j h1 h2
    have hp := hP (k - j) (by omega)
    have e1 : (k - j) * s = k * s - j * s := Nat.sub_mul k j s
    have e2 : j * s ≤ k * s := Nat.mul_le_mul_right s (by omega)
    have hpos : i - (k - j) * s = q + j * s := by omega
    rwa [hpos] at hp
  · rintro ⟨k, hw⟩
    have hk7 := walkN_le_7 d op q hq k i hw
    obtain ⟨hks, hieq, hchain⟩ := (walkN_SHL_char d s M op hbr q hq k i).mp hw
    refine ⟨k, hk7, by omega, ?_, ?_⟩
    · rw [Nat.testBit_two_pow]
      exact decide_eq_true (by omega)
    · intro j hj
      have hp := hchain (k - j) (by omega) (by omega)
      have e1 : (k - j) * s = k * s - j * s := Nat.sub_mul k j s
      have e2 : j * s ≤ k * s := Nat.mul_le_mul_right s (by omega)
      have hpos : q + (k - j) * s = i - j * s := by omega
      rwa [hpos] at hp

theorem ne_zero_of_testBit (x i : Nat) (h : x.testBit i = true) : x ≠ 0 := by
  intro hz
  rw [hz, Nat.zero_testBit] at h
  exact Bool.noConfusion h

theorem exists_testBit_of_ne_zero (x : Nat) (h : x ≠ 0) : ∃ i, x.testBit i = true := by
  by_contra hc
  push_neg at hc
  refine h (Nat.eq_of_testBit_eq fun i => ?_)
  rw [Nat.zero_testBit]
  exact Bool.not_eq_true _ ▸ hc i

theorem ite_zero_testBit (c : Prop) [Decidable c] (x i : Nat) :
    ((if c then x else 0).testBit i = true) ↔ (c ∧ x.testBit i = true) := by
  split
  next hc => simp [hc]
  next hc => simp [hc, Nat.zero_testBit]

/-- `dirStep` never leaves the board. -/
def dirStepLT (a : Nat) (d : Dir) : Bool :=
  match dirStep d a with
  | none => true
  | some b => decide (b < 64)

theorem dirStepLT_ok : ∀ a, a < 64 → ∀ d : Dir, dirStepLT a d = true := by decide

theorem dirStep_lt {d : Dir} {a b : Nat} (ha : a < 64) (h : dirStep d a = some b) :
    b < 64 := by
  have hf := dirStepLT_ok a ha d
  unfold dirStepLT at hf
  simp only [h] at hf
  exact of_decide_eq_true hf

/-- Taking a step and then the opposite step returns to the start. -/
def dirOppOK (a : Nat) (d : Dir) : Bool :=
  match dirStep d a with
  | none => true
  | some b => dirStep (dirOpp d) b == some a

theorem dirOppOK_ok : ∀ a, a < 64 → ∀ d : Dir, dirOppOK a d = true := by decide

theorem dirStep_opp {d : Dir} {a b : Nat} (ha : a < 64) (h : dirStep d a = some b) :
    dirStep (dirOpp d) b = some a := by
  have hf := dirOppOK_ok a ha d
  unfold dirOppOK at hf
  simp only [h] at hf
  exact eq_of_beq hf

theorem walkN_lt_64 (d : Dir) (op q : Nat) (hq : q < 64) :
    ∀ t i, walkN d op q t = some i → i < 64 := by
  intro t
  induction t with
  | zero =>
    intro i h
    have : q = i := Option.some.inj h
    omega
  | succ t ih =>
    intro i h
    conv_lhs at h => rw [walkN]
    cases hw : walkN d op q t with
    | none =>
      rw [hw] at h
      exact Option.noConfusion h
    | some a =>
      rw [hw] at h
      simp only at h
      cases hd : dirStep d a with
      | none =>
        simp only [hd] at h
        exact Option.noConfusion h
      | some b =>
        simp only [hd] at h
        by_cases hb : op.testBit b = true
        · rw [if_pos hb] at h
          have hbi : b = i := Option.some.inj h
          have := dirStep_lt (ih a hw) hd
          omega
        · rw [if_neg hb] at h
          exact Option.noConfusion h

theorem walkN_op_bit (d : Dir) (op q : Nat) :
    ∀ t i, 1 ≤ t → walkN d op q t = some i → op.testBit i = true := by
  intro t
  induction t with
  | zero =>
    intro i h1 _
    omega
  | succ t _ =>
    intro i _ h
    conv_lhs at h => rw [walkN]
    cases hw : walkN d op q t with
    | none =>
      rw [hw] at h
      exact Option.noConfusion h
    | some a =>
      rw [hw] at h
      simp only at h
      cases hd : dirStep d a with
      | none =>
        simp only [hd] at h
        exact Option.noConfusion h
      | some b =>
        simp only [hd] at h
        by_cases hb : op.testBit b = true
        · rw [if_pos hb] at h
          have hbi : b = i := Option.some.inj h
          rw [← hbi]
          exact hb
        · rw [if_neg hb] at h
          exact Option.noConfusion h

theorem bridge_W : ∀ a, a < 64 → dirStep Dir.W a = stepSHR 1 NOT_H_FILE a := by decide
theorem bridge_NE : ∀ a, a < 64 → dirStep Dir.NE a = stepSHR 7 NOT_A_FILE a := by decide
theorem bridge_N : ∀ a, a < 64 → dirStep Dir.N a = stepSHR 8 FILLED a := by decide
theorem bridge_NW : ∀ a, a < 64 → dirStep Dir.NW a = stepSHR 9 NOT_H_FILE a := by decide
theorem bridge_E : ∀ a, a < 64 → dirStep Dir.E a = stepSHL 1 NOT_A_FILE a := by decide
theorem bridge_SW : ∀ a, a < 64 → dirStep Dir.SW a = stepSHL 7 NOT_H_FILE a := by decide
theorem bridge_S : ∀ a, a < 64 → dirStep Dir.S a = stepSHL 8 FILLED a := by decide
theorem bridge_SE : ∀ a, a < 64 → dirStep Dir.SE a = stepSHL 9 NOT_A_FILE a := by decide

/-- The `simd_ne` selection test on an SHR lane holds exactly when the
played square is validly flanked in the corresponding direction. -/
theorem shiftTest_SHR (d : Dir) (s M me op : Nat) (hme : me < 2 ^ 64)
    (hdisj : me &&& op = 0)
    (hbr : ∀ a, a < 64 → dirStep d a = stepSHR s M a) (q : Nat) (hq : q < 64) :
    (laneShiftSHR s M (laneFillSHR s M (1 <<< q) op) &&& me ≠ 0) ↔
      (flankedDir me op q d = true) := by
  unfold flankedDir
  rw [flankedWalk_char me op d 8 q]
  constructor
  · intro h
    obtain ⟨b, hb⟩ := exists_testBit_of_ne_zero _ h
    rw [Nat.testBit_and, Bool.and_eq_true] at hb
    obtain ⟨hfb, hmb⟩ := hb
    unfold laneShiftSHR at hfb
    rw [Nat.testBit_and, Bool.and_eq_true, Nat.testBit_shiftRight] at hfb
    obtain ⟨hfill, hMb⟩ := hfb
    have hb64 : b < 64 := by
      by_contra hc
      push_neg at hc
      rw [testBit_ge_64 hme hc] at hmb
      exact Bool.noConfusion hmb
    rw [fillSHR_walk d s M op hbr q hq (s + b)] at hfill
    obtain ⟨k, hw⟩ := hfill
    have hk7 := walkN_le_7 d op q hq k (s + b) hw
    have hsb64 : s + b < 64 := walkN_lt_64 d op q hq k (s + b) hw
    have harith : s + b - s = b := by omega
    have hstep : dirStep d (s + b) = some b := by
      rw [hbr (s + b) hsb64]
      unfold stepSHR
      rw [harith]
      rw [if_pos ⟨by omega, hMb⟩]
    by_cases hob : op.testBit b = true
    · have hwk1 : walkN d op q (k + 1) = some b := by
        conv_lhs => rw [walkN]
        rw [hw]
        simp only
        rw [hstep]
        simp [hob]
      exact absurd hwk1 (by
        intro hcontra
        have hbit : (me &&& op).testBit b = true := by
          rw [Nat.testBit_and, hmb, hob]
          rfl
        rw [hdisj, Nat.zero_testBit] at hbit
        exact Bool.noConfusion hbit)
    · refine ⟨k, by omega, s + b, b, hw, hstep, ?_, hmb⟩
      rw [Bool.not_eq_true] at hob
      exact hob
  · rintro ⟨t, ht8, e, c, hw, hsc, hoc, hmc⟩
    have he64 : e < 64 := walkN_lt_64 d op q hq t e hw
    rw [hbr e he64] at hsc
    unfold stepSHR at hsc
    by_cases hcond : s ≤ e ∧ M.testBit (e - s) = true
    · rw [if_pos hcond] at hsc
      have hce : e - s = c := Option.some.inj hsc
      have hMc : M.testBit c = true := hce ▸ hcond.2
      have hfe : (laneFillSHR s M (1 <<< q) op).testBit e = true :=
        (fillSHR_walk d s M op hbr q hq e).mpr ⟨t, hw⟩
      apply ne_zero_of_testBit _ c
      unfold laneShiftSHR
      rw [Nat.testBit_and, Nat.testBit_and, Nat.testBit_shiftRight]
      have hsc2 : s + c = e := by omega
      rw [hsc2, hfe, hMc, hmc]
      rfl
    · rw [if_neg hcond] at hsc
      exact Option.noConfusion hsc

/-- The `simd_ne` selection test on an SHL lane holds exactly when the
played square is validly flanked in the corresponding direction. -/
theorem shiftTest_SHL (d : Dir) (s M me op : Nat) (hme : me < 2 ^ 64)
    (hdisj : me &&& op = 0)
    (hbr : ∀ a, a < 64 → dirStep d a = stepSHL s M a) (q : Nat) (hq : q < 64) :
    (laneShiftSHL s M (laneFillSHL s M (1 <<< q) op) &&& me ≠ 0) ↔
      (flankedDir me op q d = true) := by
  unfold flankedDir
  rw [flankedWalk_char me op d 8 q]
  constructor
  · intro h
    obtain ⟨b, hb⟩ := exists_testBit_of_ne_zero _ h
    rw [Nat.testBit_and, Bool.and_eq_true] at hb
    obtain ⟨hfb, hmb⟩ := hb
    unfold laneShiftSHL at hfb
    rw [Nat.testBit_and, Bool.and_eq_true, shl64_testBit] at hfb
    obtain ⟨⟨hb64, hsb, hfill⟩, hMb⟩ := hfb
    rw [fillSHL_walk d s M op hbr q hq (b - s) (by omega)] at hfill
    obtain ⟨k, hw⟩ := hfill
    have hk7 := walkN_le_7 d op q hq k (b - s) hw
    have harith : b - s + s = b := by omega
    have hstep : dirStep d (b - s) = some b := by
      rw [hbr (b - s) (by omega)]
      unfold stepSHL
      rw [harith]
      rw [if_pos ⟨hb64, hMb⟩]
    by_cases hob : op.testBit b = true
    · have hwk1 : walkN d op q (k + 1) = some b := by
        conv_lhs => rw [walkN]
        rw [hw]
        simp only
        rw [hstep]
        simp [hob]
      exact absurd hwk1 (by
        intro hcontra
        have hbit : (me &&& op).testBit b = true := by
          rw [Nat.testBit_and, hmb, hob]
          rfl
        rw [hdisj, Nat.zero_testBit] at hbit
        exact Bool.noConfusion hbit)
    · refine ⟨k, by omega, b - s, b, hw, hstep, ?_, hmb⟩
      rw [Bool.not_eq_true] at hob
      exact hob
  · rintro ⟨t, ht8, e, c, hw, hsc, hoc, hmc⟩
    have he64 : e < 64 := walkN_lt_64 d op q hq t e hw
    rw [hbr e he64] at hsc
    unfold stepSHL at hsc
    by_cases hcond : e + s < 64 ∧ M.testBit (e + s) = true
    · rw [if_pos hcond] at hsc
      have hce : e + s = c := Option.some.inj hsc
      have hMc : M.testBit c = true := hce ▸ hcond.2
      have hfe : (laneFillSHL s M (1 <<< q) op).testBit e = true :=
        (fillSHL_walk d s M op hbr q hq e he64).mpr ⟨t, hw⟩
      have hcs : c - s = e := by omega
      have hshl : (shl64 (laneFillSHL s M (1 <<< q) op) s).testBit c = true :=
        (shl64_testBit _ _ _).mpr ⟨by omega, by omega, by rw [hcs]; exact hfe⟩
      apply ne_zero_of_testBit _ c
      unfold laneShiftSHL
      rw [Nat.testBit_and, Nat.testBit_and, hshl, hMc, hmc]
      rfl
    · rw [if_neg hcond] at hsc
      exact Option.noConfusion hsc

theorem bool_eq_of_iff {a b : Bool} (h : a = true ↔ b = true) : a = b := by
  cases a <;> cases b <;> simp_all

/-- An SHR lane of `make_move`'s select keeps the flip run plus the played
square when the direction is flanked, and contributes `0` otherwise. -/
theorem selSHR_eq (d : Dir) (s M me op : Nat) (hme : me < 2 ^ 64)
    (hdisj : me &&& op = 0)
    (hbr : ∀ a, a < 64 → dirStep d a = stepSHR s M a) (q : Nat) (hq : q < 64) :
    (if laneShiftSHR s M (laneFillSHR s M (1 <<< q) op) &&& me ≠ 0
      then laneFillSHR s M (1 <<< q) op else 0) =
    (if flankedDir me op q d = true then (1 <<< q) ||| flipsDir me op q d else 0) := by
  by_cases hfl : flankedDir me op q d = true
  · rw [if_pos ((shiftTest_SHR d s M me op hme hdisj hbr q hq).mpr hfl), if_pos hfl]
    have hfw : flankedWalk me op d 8 q = true := hfl
    apply Nat.eq_of_testBit_eq
    intro i
    apply bool_eq_of_iff
    rw [fillSHR_walk d s M op hbr q hq i, Nat.testBit_or, Bool.or_eq_true,
      Nat.one_shiftLeft, Nat.testBit_two_pow]
    unfold flipsDir
    rw [flipWalk_testBit, decide_eq_true_eq]
    constructor
    · rintro ⟨k, hw⟩
      cases k with
      | zero => exact Or.inl (Option.some.inj hw)
      | succ t => exact Or.inr ⟨hfw, t + 1, by omega, hw⟩
    · rintro (hqi | ⟨_, t, ht, hw⟩)
      · refine ⟨0, ?_⟩
        rw [← hqi]
        rfl
      · exact ⟨t, hw⟩
  · rw [if_neg (fun hc => hfl ((shiftTest_SHR d s M me op hme hdisj hbr q hq).mp hc)),
      if_neg hfl]

/-- An SHL lane of `make_move`'s select keeps the flip run plus the played
square when the direction is flanked, and contributes `0` otherwise. -/
theorem selSHL_eq (d : Dir) (s M me op : Nat) (hme : me < 2 ^ 64)
    (hdisj : me &&& op = 0)
    (hbr : ∀ a, a < 64 → dirStep d a = stepSHL s M a) (q : Nat) (hq : q < 64) :
    (if laneShiftSHL s M (laneFillSHL s M (1 <<< q) op) &&& me ≠ 0
      then laneFillSHL s M (1 <<< q) op else 0) =
    (if flankedDir me op q d = true then (1 <<< q) ||| flipsDir me op q d else 0) := by
  by_cases hfl : flankedDir me op q d = true
  · rw [if_pos ((shiftTest_SHL d s M me op hme hdisj hbr q hq).mpr hfl), if_pos hfl]
    have hfw : flankedWalk me op d 8 q = true := hfl
    apply Nat.eq_of_testBit_eq
    intro i
    apply bool_eq_of_iff
    by_cases hi64 : i < 64
    · rw [fillSHL_walk d s M op hbr q hq i hi64, Nat.testBit_or, Bool.or_eq_true,
        Nat.one_shiftLeft, Nat.testBit_two_pow]
      unfold flipsDir
      rw [flipWalk_testBit, decide_eq_true_eq]
      constructor
      · rintro ⟨k, hw⟩
        cases k with
        | zero => exact Or.inl (Option.some.inj hw)
        | succ t => exact Or.inr ⟨hfw, t + 1, by omega, hw⟩
      · rintro (hqi | ⟨_, t, ht, hw⟩)
        · refine ⟨0, ?_⟩
          rw [← hqi]
          rfl
        · exact ⟨t, hw⟩
    · push_neg at hi64
      rw [testBit_ge_64 (laneFillSHL_lt s M (1 <<< q) op
        (by rw [Nat.one_shiftLeft]; exact Nat.pow_lt_pow_right (by omega) hq)) hi64]
      rw [Nat.testBit_or, Bool.or_eq_true, Nat.one_shiftLeft, Nat.testBit_two_pow,
        decide_eq_true_eq]
      unfold flipsDir
      rw [flipWalk_testBit]
      constructor
      · intro h
        exact Bool.noConfusion h
      · rintro (hqi | ⟨_, t, _, hw⟩)
        · omega
        · have := walkN_lt_64 d op q hq t i hw
          omega
  · rw [if_neg (fun hc => hfl ((shiftTest_SHL d s M me op hme hdisj hbr q hq).mp hc)),
      if_neg hfl]

theorem testBit_true_lt {x : Nat} (hx : x < 2 ^ 64) {i : Nat} (h : x.testBit i = true) :
    i < 64 := by
  by_contra hc
  push_neg at hc
  rw [testBit_ge_64 hx hc] at h
  exact Bool.noConfusion h

/-- A set bit of an SHR lane of `get_moves` witnesses a flanked run in the
opposite (SHL-sense) direction. -/
theorem gmLane_SHR (d : Dir) (s M me op : Nat) (hme : me < 2 ^ 64) (hop : op < 2 ^ 64)
    (hdisj : me &&& op = 0)
    (hbr : ∀ a, a < 64 → dirStep d a = stepSHR s M a) (q : Nat) (hq : q < 64)
    (h : (laneShiftSHR s M (laneFillSHR s M me op &&& op)).testBit q = true) :
    flankedDir me op q (dirOpp d) = true := by
  unfold laneShiftSHR at h
  rw [Nat.testBit_and, Bool.and_eq_true, Nat.testBit_shiftRight] at h
  obtain ⟨hX, hMq⟩ := h
  rw [Nat.testBit_and, Bool.and_eq_true] at hX
  obtain ⟨hfill, hopq⟩ := hX
  rw [laneFillSHR_testBit] at hfill
  obtain ⟨k, hk7, hgen, hchain⟩ := hfill
  have hk1 : 1 ≤ k := by
    rcases Nat.eq_zero_or_pos k with hk0 | hk1
    · exfalso
      subst hk0
      simp only [Nat.zero_mul, Nat.add_zero] at hgen
      have hcontra : (me &&& op).testBit (s + q) = true := by
        rw [Nat.testBit_and, hgen, hopq]
        rfl
      rw [hdisj, Nat.zero_testBit] at hcontra
      exact Bool.noConfusion hcontra
    · exact hk1
  have hMrun : ∀ j, j ≤ k → M.testBit (q + j * s) = true := by
    intro j hj
    cases j with
    | zero => simpa using hMq
    | succ j =>
      have hc := hchain j (by omega)
      rw [Nat.testBit_and, Bool.and_eq_true] at hc
      have hpos : s + q + j * s = q + (j + 1) * s := by
        have hjs : (j + 1) * s = j * s + s := by ring
        omega
      rw [hpos] at hc
      exact hc.2
  have hoprun : ∀ j, 1 ≤ j → j ≤ k → op.testBit (q + j * s) = true := by
    intro j h1 hj
    cases j with
    | zero => omega
    | succ j =>
      have hc := hchain j (by omega)
      rw [Nat.testBit_and, Bool.and_eq_true] at hc
      have hpos : s + q + j * s = q + (j + 1) * s := by
        have hjs : (j + 1) * s = j * s + s := by ring
        omega
      rw [hpos] at hc
      exact hc.1
  have hmec : me.testBit (q + (k + 1) * s) = true := by
    have hpos : s + q + k * s = q + (k + 1) * s := by
      have hks1 : (k + 1) * s = k * s + s := by ring
      omega
    rw [← hpos]
    exact hgen
  have hc64 : q + (k + 1) * s < 64 := testBit_true_lt hme hmec
  have hsteps : ∀ j, j < k →
      dirStep (dirOpp d) (q + j * s) = some (q + (j + 1) * s) ∧
        op.testBit (q + (j + 1) * s) = true := by
    intro j hj
    have hopj : op.testBit (q + (j + 1) * s) = true := hoprun (j + 1) (by omega) (by omega)
    have ha64 : q + (j + 1) * s < 64 := testBit_true_lt hop hopj
    have hstep : dirStep d (q + (j + 1) * s) = some (q + j * s) := by
      rw [hbr _ ha64]
      unfold stepSHR
      have hsub : q + (j + 1) * s - s = q + j * s := by
        have hjs : (j + 1) * s = j * s + s := by ring
        omega
      rw [hsub]
      rw [if_pos ⟨by have hjs : (j + 1) * s = j * s + s := (by ring); omega, hMrun j (by omega)⟩]
    exact ⟨dirStep_opp ha64 hstep, hopj⟩
  have hwalk : walkN (dirOpp d) op q k = some (q + k * s) :=
    walkN_build (dirOpp d) op q k (fun j => q + j * s) (by simp) hsteps
  have hstepf : dirStep (dirOpp d) (q + k * s) = some (q + (k + 1) * s) := by
    have hstep : dirStep d (q + (k + 1) * s) = some (q + k * s) := by
      rw [hbr _ hc64]
      unfold stepSHR
      have hsub : q + (k + 1) * s - s = q + k * s := by
        have hks1 : (k + 1) * s = k * s + s := by ring
        omega
      rw [hsub]
      rw [if_pos ⟨by have hks1 : (k + 1) * s = k * s + s := (by ring); omega, hMrun k (by omega)⟩]
    exact dirStep_opp hc64 hstep
  have hocf : op.testBit (q + (k + 1) * s) = false := by
    cases hoc : op.testBit (q + (k + 1) * s) with
    | false => rfl
    | true =>
      exfalso
      have hcontra : (me &&& op).testBit (q + (k + 1) * s) = true := by
        rw [Nat.testBit_and, hmec, hoc]
        rfl
      rw [hdisj, Nat.zero_testBit] at hcontra
      exact Bool.noConfusion hcontra
  unfold flankedDir
  rw [flankedWalk_char]
  exact ⟨k, by omega, q + k * s, q + (k + 1) * s, hwalk, hstepf, hocf, hmec⟩

/-- A set bit of an SHL lane of `get_moves` witnesses a flanked run in the
opposite (SHR-sense) direction. -/
theorem gmLane_SHL (d : Dir) (s M me op : Nat) (hme : me < 2 ^ 64) (hop : op < 2 ^ 64)
    (hdisj : me &&& op = 0)
    (hbr : ∀ a, a < 64 → dirStep d a = stepSHL s M a) (q : Nat) (hq : q < 64)
    (h : (laneShiftSHL s M (laneFillSHL s M me op &&& op)).testBit q = true) :
    flankedDir me op q (dirOpp d) = true := by
  unfold laneShiftSHL at h
  rw [Nat.testBit_and, Bool.and_eq_true] at h
  obtain ⟨hshl, hMq⟩ := h
  rw [shl64_testBit] at hshl
  obtain ⟨hq64, hsq, hX⟩ := hshl
  rw [Nat.testBit_and, Bool.and_eq_true] at hX
  obtain ⟨hfill, hopq⟩ := hX
  rw [laneFillSHL_testBit s M me op (q - s) (by omega)] at hfill
  obtain ⟨k, hk7, hks, hgen, hchain⟩ := hfill
  have hk1 : 1 ≤ k := by
    rcases Nat.eq_zero_or_pos k with hk0 | hk1
    · exfalso
      subst hk0
      simp only [Nat.zero_mul, Nat.sub_zero] at hgen
      have hcontra : (me &&& op).testBit (q - s) = true := by
        rw [Nat.testBit_and, hgen, hopq]
        rfl
      rw [hdisj, Nat.zero_testBit] at hcontra
      exact Bool.noConfusion hcontra
    · exact hk1
  have hMrun : ∀ j, j ≤ k → M.testBit (q - j * s) = true := by
    intro j hj
    cases j with
    | zero => simpa using hMq
    | succ j =>
      have hc := hchain j (by omega)
      rw [Nat.testBit_and, Bool.and_eq_true] at hc
      have hjk : j * s ≤ k * s := Nat.mul_le_mul_right s (by omega)
      have hj1k : (j + 1) * s ≤ k * s := Nat.mul_le_mul_right s (by omega)
      have hpos : q - s - j * s = q - (j + 1) * s := by
        have hjs : (j + 1) * s = j * s + s := by ring
        omega
      rw [hpos] at hc
      exact hc.2
  have hoprun : ∀ j, 1 ≤ j → j ≤ k → op.testBit (q - j * s) = true := by
    intro j h1 hj
    cases j with
    | zero => omega
    | succ j =>
      have hc := hchain j (by omega)
      rw [Nat.testBit_and, Bool.and_eq_true] at hc
      have hjk : j * s ≤ k * s := Nat.mul_le_mul_right s (by omega)
      have hj1k : (j + 1) * s ≤ k * s := Nat.mul_le_mul_right s (by omega)
      have hpos : q - s - j * s = q - (j + 1) * s := by
        have hjs : (j + 1) * s = j * s + s := by ring
        omega
      rw [hpos] at hc
      exact hc.1
  have hk1s : (k + 1) * s = k * s + s := by ring
  have hmec : me.testBit (q - (k + 1) * s) = true := by
    have hpos : q - s - k * s = q - (k + 1) * s := by omega
    rw [← hpos]
    exact hgen
  have hsteps : ∀ j, j < k →
      dirStep (dirOpp d) (q - j * s) = some (q - (j + 1) * s) ∧
        op.testBit (q - (j + 1) * s) = true := by
    intro j hj
    have hopj : op.testBit (q - (j + 1) * s) = true := hoprun (j + 1) (by omega) (by omega)
    have hjk : j * s ≤ k * s := Nat.mul_le_mul_right s (by omega)
    have hj1k : (j + 1) * s ≤ k * s := Nat.mul_le_mul_right s (by omega)
    have hjs : (j + 1) * s = j * s + s := by ring
    have hstep : dirStep d (q - (j + 1) * s) = some (q - j * s) := by
      rw [hbr _ (by omega)]
      unfold stepSHL
      have hadd : q - (j + 1) * s + s = q - j * s := by omega
      rw [hadd]
      rw [if_pos ⟨by omega, hMrun j (by omega)⟩]
    exact ⟨dirStep_opp (by omega) hstep, hopj⟩
  have hwalk : walkN (dirOpp d) op q k = some (q - k * s) :=
    walkN_build (dirOpp d) op q k (fun j => q - j * s) (by simp) hsteps
  have hstepf : dirStep (dirOpp d) (q - k * s) = some (q - (k + 1) * s) := by
    have hstep : dirStep d (q - (k + 1) * s) = some (q - k * s) := by
      rw [hbr _ (by omega)]
      unfold stepSHL
      have hadd : q - (k + 1) * s + s = q - k * s := by omega
      rw [hadd]
      rw [if_pos ⟨by omega, hMrun k (by omega)⟩]
    exact dirStep_opp (by omega) hstep
  have hocf : op.testBit (q - (k + 1) * s) = false := by
    cases hoc : op.testBit (q - (k + 1) * s) with
    | false => rfl
    | true =>
      exfalso
      have hcontra : (me &&& op).testBit (q - (k + 1) * s) = true := by
        rw [Nat.testBit_and, hmec, hoc]
        rfl
      rw [hdisj, Nat.zero_testBit] at hcontra
      exact Bool.noConfusion hcontra
  unfold flankedDir
  rw [flankedWalk_char]
  exact ⟨k, by omega, q - k * s, q - (k + 1) * s, hwalk, hstepf, hocf, hmec⟩

/-- A set bit of `get_moves` is an empty square from which some direction
is validly flanked. -/
theorem legal_flank (b : Bitboard) (hwf : b.wf) (q : Nat) (hq : q < 64)
    (h : b.get_moves.testBit q = true) :
    b.me.testBit q = false ∧ b.op.testBit q = false ∧
      ∃ d : Dir, flankedDir b.me b.op q d = true := by
  obtain ⟨hdisj, hme, hop⟩ := hwf
  simp only [Bitboard.get_moves] at h
  rw [Nat.testBit_and, Bool.and_eq_true] at h
  obtain ⟨hlanes, hemp⟩ := h
  unfold Bitboard.empties at hemp
  rw [testBit_compl64, Nat.testBit_or] at hemp
  rw [decide_eq_true hq] at hemp
  have hocc : (b.me.testBit q || b.op.testBit q) = false := by
    cases hx : (b.me.testBit q || b.op.testBit q) with
    | false => rfl
    | true =>
      rw [hx] at hemp
      exact Bool.noConfusion hemp
  rw [Bool.or_eq_false_iff] at hocc
  refine ⟨hocc.1, hocc.2, ?_⟩
  rw [Nat.testBit_or, Bool.or_eq_true] at hlanes
  rcases hlanes with hshr | hshl
  · rw [Nat.testBit_or, Bool.or_eq_true] at hshr
    rcases hshr with hshr | h9
    · rw [Nat.testBit_or, Bool.or_eq_true] at hshr
      rcases hshr with hshr | h8
      · rw [Nat.testBit_or, Bool.or_eq_true] at hshr
        rcases hshr with h1 | h7
        · exact ⟨_, gmLane_SHR Dir.W 1 NOT_H_FILE b.me b.op hme hop hdisj bridge_W q hq h1⟩
        · exact ⟨_, gmLane_SHR Dir.NE 7 NOT_A_FILE b.me b.op hme hop hdisj bridge_NE q hq h7⟩
      · exact ⟨_, gmLane_SHR Dir.N 8 FILLED b.me b.op hme hop hdisj bridge_N q hq h8⟩
    · exact ⟨_, gmLane_SHR Dir.NW 9 NOT_H_FILE b.me b.op hme hop hdisj bridge_NW q hq h9⟩
  · rw [Nat.testBit_or, Bool.or_eq_true] at hshl
    rcases hshl with hshl | h9
    · rw [Nat.testBit_or, Bool.or_eq_true] at hshl
      rcases hshl with hshl | h8
      · rw [Nat.testBit_or, Bool.or_eq_true] at hshl
        rcases hshl with h1 | h7
        · exact ⟨_, gmLane_SHL Dir.E 1 NOT_A_FILE b.me b.op hme hop hdisj bridge_E q hq h1⟩
        · exact ⟨_, gmLane_SHL Dir.SW 7 NOT_H_FILE b.me b.op hme hop hdisj bridge_SW q hq h7⟩
      · exact ⟨_, gmLane_SHL Dir.S 8 FILLED b.me b.op hme hop hdisj bridge_S q hq h8⟩
    · exact ⟨_, gmLane_SHL Dir.SE 9 NOT_A_FILE b.me b.op hme hop hdisj bridge_SE q hq h9⟩

theorem flipsDir_flanked {me op q : Nat} {d : Dir} {i : Nat}
    (h : (flipsDir me op q d).testBit i = true) : flankedDir me op q d = true := by
  unfold flipsDir at h
  rw [flipWalk_testBit] at h
  exact h.1

/-- The map-then-reduce of the per-direction selects, in list form. -/
def selOr (me op q : Nat) : Nat :=
  (dirList.map (fun d =>
    if flankedDir me op q d = true then (1 <<< q) ||| flipsDir me op q d else 0)).foldr
    (· ||| ·) 0

theorem foldr_lor_testBit (l : List Nat) (i : Nat) :
    ((l.foldr (· ||| ·) 0).testBit i = true) ↔ (∃ x ∈ l, x.testBit i = true) := by
  induction l with
  | nil => simp [Nat.zero_testBit]
  | cons a l ih => simp [Nat.testBit_or, ih]

theorem selOr_testBit (me op q i : Nat) :
    ((selOr me op q).testBit i = true) ↔
      (∃ d : Dir, flankedDir me op q d = true ∧
        ((1 <<< q) ||| flipsDir me op q d).testBit i = true) := by
  unfold selOr
  rw [foldr_lor_testBit]
  constructor
  · rintro ⟨x, hx, hbit⟩
    obtain ⟨d, hd, rfl⟩ := List.mem_map.mp hx
    rw [ite_zero_testBit] at hbit
    exact ⟨d, hbit.1, hbit.2⟩
  · rintro ⟨d, hf, hbit⟩
    refine ⟨_, List.mem_map.mpr ⟨d, by cases d <;> simp [dirList], rfl⟩, ?_⟩
    rw [ite_zero_testBit]
    exact ⟨hf, hbit⟩

theorem specFlips_testBit (me op q i : Nat) :
    ((specFlips me op q).testBit i = true) ↔
      (∃ d : Dir, (flipsDir me op q d).testBit i = true) := by
  unfold specFlips
  rw [foldr_lor_testBit]
  constructor
  · rintro ⟨x, hx, hbit⟩
    obtain ⟨d, _, rfl⟩ := List.mem_map.mp hx
    exact ⟨d, hbit⟩
  · rintro ⟨d, hbit⟩
    exact ⟨_, List.mem_map.mpr ⟨d, by cases d <;> simp [dirList], rfl⟩, hbit⟩

/-- The OR of the eight per-direction selects equals the spec's flip set
plus the played square, provided at least one direction is flanked. -/
theorem flankOr_eq (me op q : Nat)
    (hfl : ∃ d : Dir, flankedDir me op q d = true) :
    ((if flankedDir me op q Dir.W = true then (1 <<< q) ||| flipsDir me op q Dir.W else 0) |||
      (if flankedDir me op q Dir.NE = true then (1 <<< q) ||| flipsDir me op q Dir.NE else 0) |||
      (if flankedDir me op q Dir.N = true then (1 <<< q) ||| flipsDir me op q Dir.N else 0) |||
      (if flankedDir me op q Dir.NW = true then (1 <<< q) ||| flipsDir me op q Dir.NW else 0)) |||
    ((if flankedDir me op q Dir.E = true then (1 <<< q) ||| flipsDir me op q Dir.E else 0) |||
      (if flankedDir me op q Dir.SW = true then (1 <<< q) ||| flipsDir me op q Dir.SW else 0) |||
      (if flankedDir me op q Dir.S = true then (1 <<< q) ||| flipsDir me op q Dir.S else 0) |||
      (if flankedDir me op q Dir.SE = true then (1 <<< q) ||| flipsDir me op q Dir.SE else 0)) =
    specFlips me op q ||| (1 <<< q) := by
  have h1 : selOr me op q = specFlips me op q ||| (1 <<< q) := by
    apply Nat.eq_of_testBit_eq
    intro i
    apply bool_eq_of_iff
    rw [selOr_testBit, Nat.testBit_or, Bool.or_eq_true, specFlips_testBit]
    constructor
    · rintro ⟨d, hf, hbit⟩
      rw [Nat.testBit_or, Bool.or_eq_true] at hbit
      rcases hbit with hQ | hP
      · exact Or.inr hQ
      · exact Or.inl ⟨d, hP⟩
    · rintro (⟨d, hP⟩ | hQ)
      · refine ⟨d, flipsDir_flanked hP, ?_⟩
        rw [Nat.testBit_or, Bool.or_eq_true]
        exact Or.inr hP
      · obtain ⟨d0, hd0⟩ := hfl
        refine ⟨d0, hd0, ?_⟩
        rw [Nat.testBit_or, Bool.or_eq_true]
        exact Or.inl hQ
  rw [← h1]
  simp only [selOr, dirList, List.map_cons, List.map_nil, List.foldr_cons, List.foldr_nil,
    Nat.lor_assoc, Nat.or_zero]

/-- `make_move` on a flanked single-bit move computes exactly the
spec-level flip set plus the played square. -/
theorem make_move_flank (b : Bitboard) (q : Nat) (hdisj : b.me &&& b.op = 0)
    (hme : b.me < 2 ^ 64) (hq : q < 64)
    (hfl : ∃ d : Dir, flankedDir b.me b.op q d = true) :
    b.make_move (1 <<< q) =
      ⟨b.op &&& compl64 (specFlips b.me b.op q ||| (1 <<< q)),
       b.me ||| (specFlips b.me b.op q ||| (1 <<< q))⟩ := by
  simp only [Bitboard.make_move]
  rw [selSHR_eq Dir.W 1 NOT_H_FILE b.me b.op hme hdisj bridge_W q hq,
    selSHR_eq Dir.NE 7 NOT_A_FILE b.me b.op hme hdisj bridge_NE q hq,
    selSHR_eq Dir.N 8 FILLED b.me b.op hme hdisj bridge_N q hq,
    selSHR_eq Dir.NW 9 NOT_H_FILE b.me b.op hme hdisj bridge_NW q hq,
    selSHL_eq Dir.E 1 NOT_A_FILE b.me b.op hme hdisj bridge_E q hq,
    selSHL_eq Dir.SW 7 NOT_H_FILE b.me b.op hme hdisj bridge_SW q hq,
    selSHL_eq Dir.S 8 FILLED b.me b.op hme hdisj bridge_S q hq,
    selSHL_eq Dir.SE 9 NOT_A_FILE b.me b.op hme hdisj bridge_SE q hq,
    flankOr_eq b.me b.op q hfl]

theorem specFlips_sub_op {me op q : Nat} {i : Nat}
    (h : (specFlips me op q).testBit i = true) : op.testBit i = true := by
  rw [specFlips_testBit] at h
  obtain ⟨d, hP⟩ := h
  unfold flipsDir at hP
  rw [flipWalk_testBit] at hP
  obtain ⟨_, t, ht, hw⟩ := hP
  exact walkN_op_bit d op q t i ht hw

theorem count_ones_lor_shl (x q : Nat) (hq : q < 64) (hx : x.testBit q = false) :
    count_ones (x ||| (1 <<< q)) = count_ones x + 1 := by
  unfold count_ones
  have hset : (Finset.range 64).filter (fun i => (x ||| (1 <<< q)).testBit i) =
      insert q ((Finset.range 64).filter (fun i => x.testBit i)) := by
    ext i
    simp only [Finset.mem_filter, Finset.mem_insert, Finset.mem_range, Nat.testBit_or,
      Nat.one_shiftLeft, Nat.testBit_two_pow, Bool.or_eq_true, decide_eq_true_eq]
    constructor
    · rintro ⟨hi, hx1 | hqi⟩
      · exact Or.inr ⟨hi, hx1⟩
      · exact Or.inl hqi.symm
    · rintro (hiq | ⟨hi, hx1⟩)
      · exact ⟨by omega, Or.inr hiq.symm⟩
      · exact ⟨hi, Or.inl hx1⟩
  rw [hset, Finset.card_insert_of_not_mem]
  intro hmem
  rw [Finset.mem_filter] at hmem
  have hcontra := hmem.2
  rw [hx] at hcontra
  exact Bool.noConfusion hcontra

theorem compl64_lor_of_lt {x y : Nat} (hx : x < 2 ^ 64) (hy : y < 2 ^ 64) :
    compl64 (x ||| y) = compl64 x &&& compl64 y := by
  apply Nat.eq_of_testBit_eq
  intro i
  rw [Nat.testBit_and, testBit_compl64, testBit_compl64, testBit_compl64, Nat.testBit_or]
  by_cases hi : i < 64
  · rw [decide_eq_true hi]
    cases x.testBit i <;> cases y.testBit i <;> rfl
  · push_neg at hi
    have hd : decide (i < 64) = false := decide_eq_false (by omega)
    rw [hd, testBit_ge_64 hx hi, testBit_ge_64 hy hi]
    rfl

/-- C1: on a bitboard with disjoint masks, playing a single set bit of
`get_moves` yields a mine mask equal to the old opponent mask minus the
flip set, and an opponent mask equal to the old mine mask plus the flip
set plus the played square, where the flip set unions the flood-fill
runs of opponent disks over exactly the flanked directions. -/
theorem C1_make_move_flips (b : Bitboard) (q : Nat) (hwf : b.wf) (hq : q < 64)
    (hlegal : b.get_moves.testBit q = true) :
    (b.make_move (1 <<< q)).me = b.op &&& compl64 (specFlips b.me b.op q) ∧
    (b.make_move (1 <<< q)).op = b.me ||| specFlips b.me b.op q ||| (1 <<< q) := by
  obtain ⟨hmeq, hopq, hfl⟩ := legal_flank b hwf q hq hlegal
  obtain ⟨hdisj, hme, hop⟩ := hwf
  have hmm := make_move_flank b q hdisj hme hq hfl
  rw [hmm]
  constructor
  · show b.op &&& compl64 (specFlips b.me b.op q ||| (1 <<< q)) = _
    apply Nat.eq_of_testBit_eq
    intro i
    rw [Nat.testBit_and, Nat.testBit_and, testBit_compl64, testBit_compl64, Nat.testBit_or]
    cases hoi : b.op.testBit i with
    | false => rfl
    | true =>
      have hQ : (1 <<< q).testBit i = false := by
        cases hQi : (1 <<< q).testBit i with
        | false => rfl
        | true =>
          exfalso
          rw [Nat.one_shiftLeft, Nat.testBit_two_pow] at hQi
          have hqi : q = i := of_decide_eq_true hQi
          rw [← hqi] at hoi
          rw [hoi] at hopq
          exact Bool.noConfusion hopq
      rw [hQ, Bool.or_false]
  · show b.me ||| (specFlips b.me b.op q ||| (1 <<< q)) = _
    rw [Nat.lor_assoc]

/-- C10: playing a legal single-bit move occupies exactly one new square:
the popcount of the occupied mask grows by one, and the empty squares of
the result are the old empty squares minus the played square. -/
theorem C10_one_new_disk (b : Bitboard) (q : Nat) (hwf : b.wf) (hq : q < 64)
    (hlegal : b.get_moves.testBit q = true) :
    count_ones ((b.make_move (1 <<< q)).me ||| (b.make_move (1 <<< q)).op) =
      count_ones (b.me ||| b.op) + 1 ∧
    (b.make_move (1 <<< q)).empties = b.empties &&& compl64 (1 <<< q) := by
  obtain ⟨hmeq, hopq, hfl⟩ := legal_flank b hwf q hq hlegal
  obtain ⟨hdisj, hme, hop⟩ := hwf
  have hmm := make_move_flank b q hdisj hme hq hfl
  have hocc : (b.make_move (1 <<< q)).me ||| (b.make_move (1 <<< q)).op =
      (b.me ||| b.op) ||| (1 <<< q) := by
    rw [hmm]
    show (b.op &&& compl64 (specFlips b.me b.op q ||| (1 <<< q))) |||
        (b.me ||| (specFlips b.me b.op q ||| (1 <<< q))) = _
    apply Nat.eq_of_testBit_eq
    intro i
    apply bool_eq_of_iff
    simp only [Nat.testBit_or, Nat.testBit_and, Bool.or_eq_true, Bool.and_eq_true]
    constructor
    · rintro (⟨hoi, _⟩ | hmi | hF | hQ)
      · exact Or.inl (Or.inr hoi)
      · exact Or.inl (Or.inl hmi)
      · exact Or.inl (Or.inr (specFlips_sub_op hF))
      · exact Or.inr hQ
    · rintro ((hmi | hoi) | hQ)
      · exact Or.inr (Or.inl hmi)
      · by_cases hS : (specFlips b.me b.op q ||| (1 <<< q)).testBit i = true
        · rw [Nat.testBit_or, Bool.or_eq_true] at hS
          rcases hS with hF | hQ
          · exact Or.inr (Or.inr (Or.inl hF))
          · exact Or.inr (Or.inr (Or.inr hQ))
        · have hSf : (specFlips b.me b.op q ||| (1 <<< q)).testBit i = false := by
            cases hS2 : (specFlips b.me b.op q ||| (1 <<< q)).testBit i with
            | false => rfl
            | true => exact absurd hS2 hS
          have hi64 : i < 64 := testBit_true_lt hop hoi
          refine Or.inl ⟨hoi, ?_⟩
          rw [testBit_compl64, hSf, decide_eq_true hi64]
          rfl
      · exact Or.inr (Or.inr (Or.inr hQ))
  constructor
  · rw [hocc]
    apply count_ones_lor_shl (b.me ||| b.op) q hq
    rw [Nat.testBit_or, hmeq, hopq]
    rfl
  · show compl64 ((b.make_move (1 <<< q)).me ||| (b.make_move (1 <<< q)).op) = _
    rw [hocc, compl64_lor_of_lt (Nat.or_lt_two_pow hme hop)
      (by rw [Nat.one_shiftLeft]; exact Nat.pow_lt_pow_right (by omega) hq)]
    rfl

theorem C1_witness :
    (Bitboard.start.wf ∧ 19 < 64 ∧ Bitboard.start.get_moves.testBit 19 = true) ∧
    ((Bitboard.start.make_move (1 <<< 19)).me =
        Bitboard.start.op &&& compl64 (specFlips Bitboard.start.me Bitboard.start.op 19) ∧
      (Bitboard.start.make_move (1 <<< 19)).op =
        Bitboard.start.me ||| specFlips Bitboard.start.me Bitboard.start.op 19 ||| (1 <<< 19)) :=
  ⟨⟨⟨by decide, by decide, by decide⟩, by decide, by decide⟩,
    C1_make_move_flips Bitboard.start 19 ⟨by decide, by decide, by decide⟩
      (by decide) (by decide)⟩

theorem C10_witness :
    (Bitboard.start.wf ∧ 19 < 64 ∧ Bitboard.start.get_moves.testBit 19 = true) ∧
    (count_ones ((Bitboard.start.make_move (1 <<< 19)).me |||
        (Bitboard.start.make_move (1 <<< 19)).op) =
      count_ones (Bitboard.start.me ||| Bitboard.start.op) + 1 ∧
      (Bitboard.start.make_move (1 <<< 19)).empties =
        Bitboard.start.empties &&& compl64 (1 <<< 19)) :=
  ⟨⟨⟨by decide, by decide, by decide⟩, by decide, by decide⟩,
    C10_one_new_disk Bitboard.start 19 ⟨by decide, by decide, by decide⟩
      (by decide) (by decide)⟩

theorem C6_witness :
    (¬ cutoffFree (fun m a b => negamax_impl (Bitboard.start.make_move m)
        (GameState.mk Side.Black MoveType.Play).play a b 0) 0 (-5) 5 →
      moveLoop (fun m a b => negamax_impl (Bitboard.start.make_move m)
        (GameState.mk Side.Black MoveType.Play).play a b 0) 0 (-5) 5 = 5) ∧
    (cutoffFree (fun m a b => negamax_impl (Bitboard.start.make_move m)
        (GameState.mk Side.Black MoveType.Play).play a b 0) 0 (-5) 5 →
      moveLoop (fun m a b => negamax_impl (Bitboard.start.make_move m)
        (GameState.mk Side.Black MoveType.Play).play a b 0) 0 (-5) 5 =
        runningAlpha (fun m a b => negamax_impl (Bitboard.start.make_move m)
          (GameState.mk Side.Black MoveType.Play).play a b 0) 0 (-5) 5) :=
  C6_fail_hard Bitboard.start (GameState.mk Side.Black MoveType.Play) 0 0 (-5) 5
